import Mathlib

/-!
Verification of the agentbox task scheduler, task DAG operations, budget
enforcement and store analytics, as a shallow embedding of the Go sources
(internal/taskdb/task.go, internal/taskdb/db.go, internal/metrics/budget.go,
internal/store).  Go machine integers are modelled as `Int`, `time.Time`
values as integer timestamps, `time.Duration` as integer nanoseconds, and
Go maps as lists in a fixed iteration order (Go map iteration order is
unspecified; the list order is one admissible order).
-/

namespace Agentbox

/-- Go: `type TaskStatus string` (task.go). -/
abbrev TaskStatus := String

def StatusPending : TaskStatus := "pending"

def StatusInProgress : TaskStatus := "in_progress"

def StatusCompleted : TaskStatus := "completed"

def StatusFailed : TaskStatus := "failed"

def StatusDeferred : TaskStatus := "deferred"

def StatusBlocked : TaskStatus := "blocked"

/-- Go: `type Attempt struct` (task.go); only the fields the verified
operations read are carried. -/
structure Attempt where
  number : Int
  success : Bool
  errorMsg : String
  deriving Repr, DecidableEq

/-- Go: `type Task struct` (task.go).  `createdAt` is the `time.Time`
field as an integer timestamp (zero means the Go zero time). -/
structure Task where
  id : String
  title : String
  status : TaskStatus
  priority : Int
  complexity : Int
  parentID : String
  dependsOn : List String
  maxAttempts : Int
  attempts : List Attempt
  createdAt : Int
  deriving Repr, DecidableEq

/-- Go: `Task.HasExhaustedAttempts` (task.go): `len(t.Attempts) >= t.MaxAttempts`. -/
def Task.hasExhaustedAttempts (t : Task) : Bool :=
  (t.attempts.length : Int) ≥ t.maxAttempts

/-- The in-memory DB (db.go `DB.Tasks`, a Go map keyed by `task.ID`),
modelled as a list of tasks in iteration order. -/
abbrev TaskDB := List Task

/-- Go map lookup `db.Tasks[id]`: the first entry with the given id. -/
def findTask (db : TaskDB) (id : String) : Option Task :=
  db.find? (fun t => t.id == id)

/-- Go: the `completedIDs` set built at the top of `DB.NextTask` (db.go):
an id is in the set iff some task with that id has status completed. -/
def isCompletedId (db : TaskDB) (d : String) : Bool :=
  db.any (fun u => u.id == d && u.status == StatusCompleted)

/-- Go: the candidate filter inside `DB.NextTask` (db.go): status pending or
in_progress, attempts not exhausted, and no dependency outside the
completed-id set. -/
def isCandidate (db : TaskDB) (t : Task) : Bool :=
  (t.status == StatusPending || t.status == StatusInProgress)
    && !t.hasExhaustedAttempts
    && t.dependsOn.all (fun d => isCompletedId db d)

/-- Go: the `sort.Slice` comparator in `DB.NextTask` (db.go): priority
ascending, then `CreatedAt.Before` ascending.  `betterTask best u` keeps
`best` unless `u` is strictly smaller in that order. -/
def betterTask (best u : Task) : Task :=
  if u.priority < best.priority || (u.priority == best.priority && u.createdAt < best.createdAt)
  then u else best

/-- Returning `candidates[0]` after `sort.Slice`: a minimal element of the
candidate list under the comparator (Go's unstable sort picks an
unspecified minimal element on full ties; the fold keeps the earliest). -/
def selectMin : List Task → Option Task
  | [] => none
  | t :: ts => some (ts.foldl betterTask t)

/-- Go: `DB.NextTask` (db.go lines 161-207). -/
def nextTask (db : TaskDB) : Option Task :=
  selectMin (db.filter (fun t => isCandidate db t))

/-- The candidate condition exactly as claim C1 words it. -/
def CandidateProp (db : TaskDB) (t : Task) : Prop :=
  (t.status = StatusPending ∨ t.status = StatusInProgress) ∧
  (t.attempts.length : Int) < t.maxAttempts ∧
  ∀ d ∈ t.dependsOn, ∃ u ∈ db, u.id = d ∧ u.status = StatusCompleted

/-- The (priority, created_at) lexicographic key order of claim C1. -/
def KeyLE (a b : Task) : Prop :=
  a.priority < b.priority ∨ (a.priority = b.priority ∧ a.createdAt ≤ b.createdAt)

/-- Outcome of a mutating Go method: success, an error return (carrying the
DB state left behind by the call), or a runtime panic. -/
inductive OpOutcome (α : Type) where
  | ok : α → OpOutcome α
  | fail : String → α → OpOutcome α
  | panic : OpOutcome α
  deriving Repr, DecidableEq

/-- In-place mutation of the task found by `db.Tasks[id]`: rewrite the first
entry with the given id. -/
def updFirst (db : TaskDB) (id : String) (f : Task → Task) : TaskDB :=
  match db with
  | [] => []
  | t :: ts => if t.id == id then f t :: ts else t :: updFirst ts id f

/-- The default-filling steps of `DB.addLocked` (db.go): max_attempts 3,
complexity 3, created_at now. -/
def addDefaults (now : Int) (task : Task) : Task :=
  let t1 := if task.maxAttempts = 0 then { task with maxAttempts := 3 } else task
  let t2 := if t1.complexity = 0 then { t1 with complexity := 3 } else t1
  if t2.createdAt = 0 then { t2 with createdAt := now } else t2

/-- Go: `DB.addLocked` (db.go): duplicate-id check, then defaults, then
insert. -/
def addLocked (now : Int) (db : TaskDB) (task : Task) : OpOutcome TaskDB :=
  match findTask db task.id with
  | some _ => .fail ("task " ++ task.id ++ " already exists") db
  | none => .ok (db ++ [addDefaults now task])

/-- Go: `DB.Add` (db.go). -/
def add (now : Int) (db : TaskDB) (task : Task) : OpOutcome TaskDB :=
  addLocked now db task

/-- The successor list of a node in the dependency graph: the
`t.DependsOn` list of the task found under that id, empty when absent. -/
def succs (db : TaskDB) (id : String) : List String :=
  match findTask db id with
  | none => []
  | some t => t.dependsOn

/-- The loop over `t.DependsOn` inside the DFS of `DB.wouldCreateCycle`
(db.go): run `f` on each successor, threading the visited set, with early
exit on the first hit. -/
def dfsList (f : List String → String → Bool × List String) :
    List String → List String → Bool × List String
  | vis, [] => (false, vis)
  | vis, d :: ds =>
    match f vis d with
    | (true, vis') => (true, vis')
    | (false, vis') => dfsList f vis' ds

/-- Go: the recursive `dfs` closure of `DB.wouldCreateCycle` (db.go):
seek `target` from a node, with a visited set.  The fuel argument bounds
the recursion depth; `dfsFuel` below always suffices because every
recursive call first adds an unvisited node to the visited set. -/
def dfsVisit (db : TaskDB) (target : String) : Nat → List String → String → Bool × List String
  | 0, vis, _ => (false, vis)
  | Nat.succ fuel, vis, id =>
    if id = target then (true, vis)
    else if id ∈ vis then (false, vis)
    else dfsList (dfsVisit db target fuel) (id :: vis) (succs db id)

/-- Every id the DFS can ever visit: task ids, dependency targets, and the
start node. -/
def nodeUniverse (db : TaskDB) (start : String) : List String :=
  start :: (db.map Task.id ++ db.flatMap Task.dependsOn)

/-- Fuel that strictly exceeds the number of distinct visitable ids of any
start node, hence is never exhausted by the DFS. -/
def dfsFuel (db : TaskDB) : Nat :=
  db.length + (db.map (fun t => t.dependsOn.length)).sum + 2

/-- Go: `DB.wouldCreateCycle(taskID, from)` (db.go): DFS from `fromID`
seeking `taskID`. -/
def wouldCreateCycle (db : TaskDB) (taskID fromID : String) : Bool :=
  (dfsVisit db taskID (dfsFuel db) [] fromID).1

/-- Go: `task.DependsOn = append(task.DependsOn, dependsOn)` (db.go line 76). -/
def appendDep (dep : String) (t : Task) : Task :=
  { t with dependsOn := t.dependsOn ++ [dep] }

/-- Go: the rollback `task.DependsOn = task.DependsOn[:len(task.DependsOn)-1]`
(db.go line 78). -/
def dropLastDep (t : Task) : Task :=
  { t with dependsOn := t.dependsOn.dropLast }

/-- Go: `DB.AddDependency` (db.go lines 56-83): lookups, idempotence check,
append the edge, cycle check on the mutated DB, rollback by truncating the
appended entry on failure. -/
def addDependency (db : TaskDB) (taskID dep : String) : OpOutcome TaskDB :=
  match findTask db taskID with
  | none => .fail ("task " ++ taskID ++ " not found") db
  | some task =>
    match findTask db dep with
    | none => .fail ("dependency " ++ dep ++ " not found") db
    | some _ =>
      if dep ∈ task.dependsOn then .ok db
      else
        let db2 := updFirst db taskID (appendDep dep)
        if wouldCreateCycle db2 taskID dep then
          .fail ("adding dependency " ++ taskID ++ " -> " ++ dep ++ " would create a cycle")
            (updFirst db2 taskID dropLastDep)
        else .ok db2

/-- State of the `DB.DetectCycles` traversal (db.go lines 111-158). -/
structure DCState where
  visited : List String
  inStack : List String
  path : List String
  cycles : List (List String)
  deriving Repr, DecidableEq

/-- The cycle-extraction loop of `DB.DetectCycles`: walk `path` from its
end down to the first occurrence of `dep` (inclusive). -/
def takeThrough (a : String) : List String → List String
  | [] => []
  | x :: xs => if x = a then [x] else x :: takeThrough a xs

/-- Go: the `cycle := []string{dep}; for i := len(path)-1; ...` extraction. -/
def extractCycle (dep : String) (path : List String) : List String :=
  dep :: takeThrough dep path.reverse

/-- Popping the path and clearing the on-stack mark at the end of a DFS
visit. -/
def dcFinish (id : String) (st : DCState) : DCState :=
  { st with path := st.path.dropLast, inStack := st.inStack.erase id }

/-- The loop over `task.DependsOn` inside `DB.DetectCycles`: recurse into
unvisited successors; emit a cycle when a successor is on the stack. -/
def dcDeps (f : DCState → String → DCState) : DCState → List String → DCState
  | st, [] => st
  | st, d :: ds =>
    let st' :=
      if d ∉ st.visited then f st d
      else if d ∈ st.inStack then { st with cycles := st.cycles ++ [extractCycle d st.path] }
      else st
    dcDeps f st' ds

/-- Go: the recursive `dfs` closure of `DB.DetectCycles`. -/
def dcVisit (db : TaskDB) : Nat → DCState → String → DCState
  | 0, st, _ => st
  | Nat.succ fuel, st, id =>
    let st1 : DCState :=
      { visited := id :: st.visited, inStack := id :: st.inStack,
        path := st.path ++ [id], cycles := st.cycles }
    match findTask db id with
    | none => dcFinish id st1
    | some t => dcFinish id (dcDeps (dcVisit db fuel) st1 t.dependsOn)

/-- Go: `DB.DetectCycles` (db.go lines 111-158): DFS from every not-yet
visited task id. -/
def detectCycles (db : TaskDB) : List (List String) :=
  (db.foldl (fun st t => if t.id ∉ st.visited then dcVisit db (dfsFuel db) st t.id else st)
    ⟨[], [], [], []⟩).cycles

/-- The per-subtask mutation of `DB.SplitTask` (db.go lines 220-221):
`sub.ParentID = parentID; sub.DependsOn = append(sub.DependsOn,
parent.DependsOn...)`. -/
def subSeed (parentID : String) (parentDeps : List String) (s : Task) : Task :=
  { s with parentID := parentID, dependsOn := s.dependsOn ++ parentDeps }

/-- The subtask-insertion loop of `DB.SplitTask` (db.go lines 219-225):
each subtask gets the parent id and inherits the parent's upstreams, then
is inserted; the first failing insert aborts the loop leaving the
previously inserted subtasks in place. -/
def splitAdds (now : Int) (parentID : String) (parentDeps : List String) :
    TaskDB → List Task → OpOutcome TaskDB
  | db, [] => .ok db
  | db, sub :: rest =>
    match addLocked now db (subSeed parentID parentDeps sub) with
    | .ok db' => splitAdds now parentID parentDeps db' rest
    | .fail e dbE => .fail ("adding subtask " ++ sub.id ++ ": " ++ e) dbE
    | .panic => .panic

/-- The edge-rewrite step of `DB.SplitTask`: every dependency on the
parent id is redirected to the last subtask's id. -/
def redirectDeps (parentID lastID : String) (t : Task) : Task :=
  { t with dependsOn := t.dependsOn.map (fun d => if d = parentID then lastID else d) }

/-- The final step of `DB.SplitTask`: the parent status becomes deferred. -/
def markDeferred (t : Task) : Task :=
  { t with status := StatusDeferred }

/-- Go: `DB.SplitTask` (db.go lines 210-239).  `subtasks[len(subtasks)-1]`
on an empty slice is an out-of-range index, modelled as `.panic`. -/
def splitTask (now : Int) (db : TaskDB) (parentID : String) (subtasks : List Task) :
    OpOutcome TaskDB :=
  match findTask db parentID with
  | none => .fail ("task " ++ parentID ++ " not found") db
  | some parent =>
    match splitAdds now parentID parent.dependsOn db subtasks with
    | .fail e dbE => .fail e dbE
    | .panic => .panic
    | .ok db1 =>
      match subtasks.getLast? with
      | none => .panic
      | some lastSub =>
        .ok (updFirst (db1.map (redirectDeps parentID lastSub.id)) parentID markDeferred)

/-- The validation pass of `DB.MergeTasks` (db.go lines 247-258): the first
old id with no task aborts the call before any mutation. -/
def firstMissing (db : TaskDB) : List String → Option String
  | [] => none
  | id :: rest =>
    match findTask db id with
    | none => some id
    | some _ => firstMissing db rest

/-- The `seen` map deduplication of `DB.MergeTasks`: keep the first
occurrence of each element. -/
def dedupGo : List String → List String → List String
  | _, [] => []
  | seen, x :: xs => if x ∈ seen then dedupGo seen xs else x :: dedupGo (x :: seen) xs

/-- The dependency union of `DB.MergeTasks` (db.go lines 246-258): all
old tasks' upstream ids except the new id, in first-encounter order,
deduplicated (the `depSet` Go map is modelled in first-encounter order;
Go's map iteration order is unspecified and no claim depends on list
order). -/
def collectedOldDeps (db : TaskDB) (newID : String) (oldIDs : List String) : List String :=
  dedupGo [] ((oldIDs.flatMap (fun i => ((findTask db i).map Task.dependsOn).getD [])).filter
    (fun d => d ≠ newID))

/-- The new task after the union loop of `DB.MergeTasks` (db.go lines
260-271): collected deps not already present are appended. -/
def mergedNewTask (db : TaskDB) (nt : Task) (oldIDs : List String) : Task :=
  { nt with dependsOn := nt.dependsOn
      ++ (collectedOldDeps db nt.id oldIDs).filter (fun d => d ∉ nt.dependsOn) }

/-- The reference-rewrite step of `DB.MergeTasks` (db.go lines 273-291):
old ids become the new id, then the list is deduplicated keeping first
occurrences. -/
def rewriteDeps (oldIDs : List String) (newID : String) (t : Task) : Task :=
  { t with dependsOn := dedupGo [] (t.dependsOn.map (fun d => if d ∈ oldIDs then newID else d)) }

/-- Go: `DB.MergeTasks` (db.go lines 242-299): validate old ids, union
their upstreams into the new task, rewrite and dedup all references,
remove the old tasks, insert the new one. -/
def mergeTasks (now : Int) (db : TaskDB) (newTask : Task) (oldIDs : List String) :
    OpOutcome TaskDB :=
  match firstMissing db oldIDs with
  | some id => .fail ("task " ++ id ++ " not found") db
  | none =>
    let db1 := db.map (rewriteDeps oldIDs newTask.id)
    let db2 := db1.filter (fun t => t.id ∉ oldIDs)
    addLocked now db2 (mergedNewTask db newTask oldIDs)

/-- One dependency step: `b` is an upstream of the task stored under `a`. -/
def EdgeRel (db : TaskDB) (a b : String) : Prop := b ∈ succs db a

/-- Reachability along dependency edges. -/
def Reaches (db : TaskDB) (a b : String) : Prop := Relation.ReflTransGen (EdgeRel db) a b

/-- A nonempty dependency cycle exists. -/
def HasCycle (db : TaskDB) : Prop := ∃ a, Relation.TransGen (EdgeRel db) a a

def Acyclic (db : TaskDB) : Prop := ¬ HasCycle db

/-- The §3 invariant of claim C5: every id in every depends_on list names a
present task. -/
def EndpointsOK (db : TaskDB) : Prop :=
  ∀ t ∈ db, ∀ d ∈ t.dependsOn, ∃ u ∈ db, u.id = d

/-- Go: `Budget` (budget.go).  `maxDuration` is `time.Duration` in
nanoseconds; `warnThreshold` is the float64 threshold, modelled as an
exact rational. -/
structure Budget where
  maxTokens : Int
  maxDuration : Int
  maxIterations : Int
  warnThreshold : ℚ
  deriving Repr, DecidableEq

/-- Go: `BudgetStatus` (budget.go). -/
structure BudgetStatus where
  tokensUsed : Int
  tokensMax : Int
  durationUsed : Int
  durationMax : Int
  iterationsUsed : Int
  iterationsMax : Int
  warning : Bool
  exceeded : Bool
  reason : String
  deriving Repr, DecidableEq

/-- Abstracts Go's `time.Duration.String` rendering; the verified
statements only use that each exceeded reason carries its own
dimension-specific text. -/
def durString (d : Int) : String := toString d

/-- Go: `elapsed.Round(time.Second)` for nonnegative durations: round to
the nearest multiple of 1e9 ns, halves away from zero. -/
def roundSecond (d : Int) : Int :=
  let m : Int := 1000000000
  let r := d.tmod m
  if r + r < m then d - r else d - r + m

def tokenExceededMsg (used max : Int) : String :=
  "token budget exceeded: " ++ toString used ++ "/" ++ toString max

def durationExceededMsg (elapsed max : Int) : String :=
  "duration budget exceeded: " ++ durString (roundSecond elapsed) ++ "/" ++ durString max

def iterationExceededMsg (used max : Int) : String :=
  "iteration budget exceeded: " ++ toString used ++ "/" ++ toString max

/-- Warn messages (the percent clause of Go's token message is abstracted
away; no verified statement inspects warn text). -/
def approachingTokenMsg (used max : Int) : String :=
  "approaching token limit: " ++ toString used ++ "/" ++ toString max

def approachingDurationMsg (elapsed max : Int) : String :=
  "approaching duration limit: " ++ durString (roundSecond elapsed) ++ "/" ++ durString max

def approachingIterationMsg (used max : Int) : String :=
  "approaching iteration limit: " ++ toString used ++ "/" ++ toString max

/-- Go: `NewBudgetEnforcer` (budget.go): default warn threshold 0.8. -/
def newBudgetEnforcer (b : Budget) : Budget :=
  if b.warnThreshold = 0 then { b with warnThreshold := 4/5 } else b

/-- Go: `BudgetEnforcer.Check` (budget.go lines 57-102).  `elapsed` is the
`time.Since(e.startTime)` value at the call; float64 threshold arithmetic
is modelled exactly over ℚ. -/
def check (b : Budget) (elapsed tokensUsed iterationsUsed : Int) : BudgetStatus :=
  let base : BudgetStatus :=
    { tokensUsed := tokensUsed, tokensMax := b.maxTokens,
      durationUsed := elapsed, durationMax := b.maxDuration,
      iterationsUsed := iterationsUsed, iterationsMax := b.maxIterations,
      warning := false, exceeded := false, reason := "" }
  if b.maxTokens > 0 ∧ tokensUsed ≥ b.maxTokens then
    { base with exceeded := true, reason := tokenExceededMsg tokensUsed b.maxTokens }
  else if b.maxDuration > 0 ∧ elapsed ≥ b.maxDuration then
    { base with exceeded := true, reason := durationExceededMsg elapsed b.maxDuration }
  else if b.maxIterations > 0 ∧ iterationsUsed ≥ b.maxIterations then
    { base with exceeded := true, reason := iterationExceededMsg iterationsUsed b.maxIterations }
  else
    let s1 :=
      if b.maxTokens > 0 ∧ (tokensUsed : ℚ) ≥ (b.maxTokens : ℚ) * b.warnThreshold then
        { base with warning := true, reason := approachingTokenMsg tokensUsed b.maxTokens }
      else base
    let s2 :=
      if b.maxDuration > 0 ∧ (elapsed : ℚ) ≥ (b.maxDuration : ℚ) * b.warnThreshold then
        { s1 with warning := true, reason := approachingDurationMsg elapsed b.maxDuration }
      else s1
    if b.maxIterations > 0 ∧ (iterationsUsed : ℚ) ≥ (b.maxIterations : ℚ) * b.warnThreshold then
      { s2 with warning := true, reason := approachingIterationMsg iterationsUsed b.maxIterations }
    else s2

/-- A row of the `tasks` table as read by `Store.NextTask`
(store, SQL query over tasks / task_dependencies / attempts). -/
structure TaskRow where
  id : String
  status : String
  priority : Int
  createdAt : Int
  maxAttempts : Int
  deriving Repr, DecidableEq

/-- The persistent state of one session: task rows, dependency edges
`(task_id, depends_on)`, and one entry per attempts row (its task_id). -/
structure StoreState where
  tasks : List TaskRow
  deps : List (String × String)
  attempts : List String
  deriving Repr, DecidableEq

/-- `SELECT COUNT(*) FROM attempts a WHERE a.task_id = t.id`. -/
def attemptRows (s : StoreState) (id : String) : Nat :=
  (s.attempts.filter (fun a => a == id)).length

/-- The `EXISTS` subquery of `Store.NextTask`: some dependency edge of the
task joins to a task row that is not completed. -/
def sqlBlocked (s : StoreState) (id : String) : Bool :=
  s.deps.any (fun e => e.1 == id &&
    s.tasks.any (fun dp => dp.id == e.2 && dp.status != "completed"))

/-- The WHERE clause of `Store.NextTask`. -/
def sqlCandidate (s : StoreState) (t : TaskRow) : Bool :=
  (t.status == "pending" || t.status == "in_progress")
    && !sqlBlocked s t.id
    && ((attemptRows s t.id : Int) < t.maxAttempts)

def betterRow (best u : TaskRow) : TaskRow :=
  if u.priority < best.priority || (u.priority == best.priority && u.createdAt < best.createdAt)
  then u else best

/-- `ORDER BY t.priority ASC, t.created_at ASC LIMIT 1`: a minimal row
under the key order (ties are unspecified in SQL; the fold keeps the
earliest row in table order). -/
def selectMinRow : List TaskRow → Option TaskRow
  | [] => none
  | t :: ts => some (ts.foldl betterRow t)

/-- Go: `Store.NextTask` (store, SQL-based scheduler). -/
def sqlNextTask (s : StoreState) : Option TaskRow :=
  selectMinRow (s.tasks.filter (fun t => sqlCandidate s t))

/-- Dependency targets of a task id in the store. -/
def depsOf (s : StoreState) (id : String) : List String :=
  (s.deps.filter (fun e => e.1 == id)).map (fun e => e.2)

/-- Materialize a store row as an in-memory task with the same status,
priority, creation time, max_attempts, dependency list and attempt count. -/
def rowToTask (s : StoreState) (r : TaskRow) : Task :=
  { id := r.id, title := "", status := r.status, priority := r.priority, complexity := 0,
    parentID := "", dependsOn := depsOf s r.id, maxAttempts := r.maxAttempts,
    attempts := List.replicate (attemptRows s r.id) { number := 0, success := false, errorMsg := "" },
    createdAt := r.createdAt }

/-- The in-memory DAG holding the same tasks, edges, statuses, priorities,
creation times, max_attempts and attempt counts as the store. -/
def storeToDag (s : StoreState) : TaskDB := s.tasks.map (rowToTask s)

/-- The body of `Store.QualityTrend` after scanning: `results` is the
`overall_pass` column newest first.  The first `len/2` entries are the
recent half, the rest the older half (the middle entry of an odd-length
list goes to the older half); float64 rates are modelled exactly over ℚ. -/
def trendOf (results : List Bool) : String :=
  if results.length < 2 then "stable"
  else
    let recentCount := results.length / 2
    let olderCount := results.length - recentCount
    let recentPasses := ((results.take recentCount).filter (fun r => r)).length
    let olderPasses := ((results.drop recentCount).filter (fun r => r)).length
    let recentRate : ℚ := (recentPasses : ℚ) / (recentCount : ℚ)
    let olderRate : ℚ := (olderPasses : ℚ) / (olderCount : ℚ)
    if recentRate > olderRate + 1/5 then "improving"
    else if recentRate < olderRate - 1/5 then "degrading"
    else "stable"

/-- Go: `Store.QualityTrend` (store): `snaps` is the session's
`overall_pass` column in insertion (id) order; the query reads it newest
first (`ORDER BY id DESC`), limited to `lastN`. -/
def qualityTrend (snaps : List Bool) (lastN : Nat) : String :=
  trendOf (snaps.reverse.take lastN)

def currentSchemaVersion : Int := 1

/-- Go: `Store.migrate` (store): `recorded` is `none` when the
`schema_version` table does not exist, otherwise `MAX(version)`.  Returns
the recorded version after a successful open. -/
def migrate (recorded : Option Int) : Except String Int :=
  match recorded with
  | none => Except.ok currentSchemaVersion
  | some version =>
    if version < currentSchemaVersion then
      Except.error ("schema version " ++ toString version ++ " is older than "
        ++ toString currentSchemaVersion ++ " — migration not yet implemented")
    else Except.ok version

def isWs (c : Char) : Bool := c = ' ' || c = '\t' || c = '\n' || c = '\r'

def skipWs : List Char → List Char
  | [] => []
  | c :: cs => if isWs c then skipWs cs else c :: cs

def hexVal (c : Char) : Option Nat :=
  if '0' ≤ c ∧ c ≤ '9' then some (c.toNat - '0'.toNat)
  else if 'a' ≤ c ∧ c ≤ 'f' then some (c.toNat - 'a'.toNat + 10)
  else if 'A' ≤ c ∧ c ≤ 'F' then some (c.toNat - 'A'.toNat + 10)
  else none

/-- JSON string body after the opening quote: content and remainder after
the closing quote (standard escapes; `\u` without surrogate pairing). -/
def pStr : Nat → List Char → Option (List Char × List Char)
  | 0, _ => none
  | _, [] => none
  | Nat.succ f, c :: cs =>
    if c = '"' then some ([], cs)
    else if c = '\\' then
      match cs with
      | [] => none
      | e :: cs' =>
        if e = '"' ∨ e = '\\' ∨ e = '/' then
          (pStr f cs').map (fun p => (e :: p.1, p.2))
        else if e = 'n' then (pStr f cs').map (fun p => ('\n' :: p.1, p.2))
        else if e = 't' then (pStr f cs').map (fun p => ('\t' :: p.1, p.2))
        else if e = 'r' then (pStr f cs').map (fun p => ('\r' :: p.1, p.2))
        else if e = 'u' then
          match cs' with
          | h1 :: h2 :: h3 :: h4 :: cs'' =>
            match hexVal h1, hexVal h2, hexVal h3, hexVal h4 with
            | some a, some b, some c2, some d =>
              (pStr f cs'').map (fun p => (Char.ofNat (((a * 16 + b) * 16 + c2) * 16 + d) :: p.1, p.2))
            | _, _, _, _ => none
          | _ => none
        else none
    else (pStr f cs).map (fun p => (c :: p.1, p.2))

/-- Items of a JSON array of strings, after the opening bracket and any
leading content; expects a string, then a comma or the closing bracket. -/
def pItems : Nat → List Char → Option (List String × List Char)
  | 0, _ => none
  | Nat.succ f, cs =>
    match skipWs cs with
    | '"' :: r =>
      match pStr (r.length + 1) r with
      | none => none
      | some (content, rest) =>
        match skipWs rest with
        | ',' :: r2 => (pItems f r2).map (fun p => (String.mk content :: p.1, p.2))
        | ']' :: r2 => some ([String.mk content], r2)
        | _ => none
    | _ => none

/-- Go: `json.Unmarshal(raw, &tests)` for `tests []string`: a JSON array
of strings (or `null`, which leaves the slice empty); anything else is an
unmarshal error, modelled as `none`. -/
def parseFailedTests (s : String) : Option (List String) :=
  match skipWs s.toList with
  | '[' :: r =>
    (match skipWs r with
     | ']' :: r2 => if (skipWs r2).isEmpty then some [] else none
     | _ =>
       match pItems (r.length + 1) r with
       | none => none
       | some (items, rest) => if (skipWs rest).isEmpty then some items else none)
  | 'n' :: 'u' :: 'l' :: 'l' :: r => if (skipWs r).isEmpty then some [] else none
  | _ => none

/-- Go: `counts[t]++` on a map, modelled as an association list. -/
def bump : List (String × Nat) → String → List (String × Nat)
  | [], k => [(k, 1)]
  | (a, n) :: rest, k => if a = k then (a, n + 1) :: rest else (a, n) :: bump rest k

/-- Reading the final counts map. -/
def lookupCount (m : List (String × Nat)) (k : String) : Nat :=
  match m.find? (fun p => p.1 == k) with
  | some p => p.2
  | none => 0

/-- The rows scanned by `Store.FailingTestTrend`: `failed_tests_json`
values in id order (`none` is SQL NULL); the query keeps non-NULL
non-empty payloads, orders newest first and takes `lastN`. -/
def selectedPayloads (snaps : List (Option String)) (lastN : Nat) : List String :=
  ((snaps.filterMap (fun p =>
      match p with
      | none => none
      | some s => if s = "" then none else some s)).reverse).take lastN

/-- Go: `Store.FailingTestTrend` (store): count test-name occurrences over
the selected rows, skipping rows whose payload does not unmarshal. -/
def failingTestTrend (snaps : List (Option String)) (lastN : Nat) : List (String × Nat) :=
  (selectedPayloads snaps lastN).foldl (fun m raw =>
    match parseFailedTests raw with
    | none => m
    | some tests => tests.foldl bump m) []

theorem isCandidate_iff (db : TaskDB) (t : Task) :
    isCandidate db t = true ↔ CandidateProp db t := by
  unfold isCandidate CandidateProp Task.hasExhaustedAttempts isCompletedId
  simp only [Bool.and_eq_true, Bool.or_eq_true, beq_iff_eq, Bool.not_eq_true',
    decide_eq_false_iff_not, not_le, List.all_eq_true, List.any_eq_true]
  constructor
  · rintro ⟨⟨hs, hx⟩, hd⟩
    refine ⟨hs, by simpa using hx, fun d hd' => ?_⟩
    obtain ⟨u, hu, h1, h2⟩ := hd d hd'
    exact ⟨u, hu, h1, h2⟩
  · rintro ⟨hs, hx, hd⟩
    refine ⟨⟨hs, by simpa using hx⟩, fun d hd' => ?_⟩
    obtain ⟨u, hu, h1, h2⟩ := hd d hd'
    exact ⟨u, hu, h1, h2⟩

theorem keyLE_trans {a b c : Task} (h1 : KeyLE a b) (h2 : KeyLE b c) : KeyLE a c := by
  unfold KeyLE at *
  rcases h1 with h1 | ⟨h1, h1'⟩ <;> rcases h2 with h2 | ⟨h2, h2'⟩
  · exact Or.inl (lt_trans h1 h2)
  · exact Or.inl (h2 ▸ h1)
  · exact Or.inl (h1 ▸ h2)
  · exact Or.inr ⟨h1.trans h2, le_trans h1' h2'⟩

theorem betterTask_le_left (a u : Task) : KeyLE (betterTask a u) a := by
  unfold betterTask KeyLE
  split
  · rename_i h
    simp only [Bool.or_eq_true, decide_eq_true_eq, Bool.and_eq_true, beq_iff_eq] at h
    rcases h with h | ⟨h, h'⟩
    · exact Or.inl h
    · exact Or.inr ⟨h, le_of_lt (by simpa using h')⟩
  · exact Or.inr ⟨rfl, le_refl _⟩

theorem betterTask_le_right (a u : Task) : KeyLE (betterTask a u) u := by
  unfold betterTask KeyLE
  split
  · exact Or.inr ⟨rfl, le_refl _⟩
  · rename_i h
    simp only [Bool.or_eq_true, decide_eq_true_eq, Bool.and_eq_true, beq_iff_eq,
      not_or, not_and] at h
    obtain ⟨h1, h2⟩ := h
    rcases lt_trichotomy a.priority u.priority with hp | hp | hp
    · exact Or.inl hp
    · refine Or.inr ⟨hp, ?_⟩
      by_contra hc
      exact h2 hp.symm (by simpa using lt_of_not_le hc)
    · exact absurd hp h1

theorem betterTask_cases (a u : Task) : betterTask a u = a ∨ betterTask a u = u := by
  unfold betterTask
  split
  · exact Or.inr rfl
  · exact Or.inl rfl

theorem foldl_betterTask_spec (l : List Task) (a : Task) :
    (l.foldl betterTask a = a ∨ l.foldl betterTask a ∈ l) ∧
    KeyLE (l.foldl betterTask a) a ∧ ∀ u ∈ l, KeyLE (l.foldl betterTask a) u := by
  induction l generalizing a with
  | nil => exact ⟨Or.inl rfl, Or.inr ⟨rfl, le_refl _⟩, by simp⟩
  | cons x xs ih =>
    obtain ⟨hmem, hle, hall⟩ := ih (betterTask a x)
    simp only [List.foldl_cons]
    refine ⟨?_, ?_, ?_⟩
    · rcases hmem with h | h
      · rw [h]
        rcases betterTask_cases a x with h2 | h2
        · exact Or.inl h2
        · refine Or.inr ?_
          rw [h2]
          exact List.mem_cons_self x xs
      · exact Or.inr (List.mem_cons.2 (Or.inr h))
    · exact keyLE_trans hle (betterTask_le_left a x)
    · intro u hu
      rcases List.mem_cons.1 hu with h | h
      · rw [h]
        exact keyLE_trans hle (betterTask_le_right a x)
      · exact hall u h

theorem selectMin_none_iff (l : List Task) : selectMin l = none ↔ l = [] := by
  cases l <;> simp [selectMin]

theorem selectMin_spec (l : List Task) (t : Task) (h : selectMin l = some t) :
    t ∈ l ∧ ∀ u ∈ l, KeyLE t u := by
  cases l with
  | nil => simp [selectMin] at h
  | cons x xs =>
    simp only [selectMin, Option.some.injEq] at h
    obtain ⟨hmem, hle, hall⟩ := foldl_betterTask_spec xs x
    subst h
    constructor
    · rcases hmem with h | h
      · rw [h]
        exact List.mem_cons_self x xs
      · exact List.mem_cons.2 (Or.inr h)
    · intro u hu
      rcases List.mem_cons.1 hu with h | h
      · rw [h]
        exact hle
      · exact hall u h

/-- A concrete task fixture used by the closed witness statements. -/
def exampleTask (id : String) (st : String) (pr ca : Int) (deps : List String) : Task :=
  { id := id, title := "", status := st, priority := pr, complexity := 3, parentID := "",
    dependsOn := deps, maxAttempts := 3, attempts := [], createdAt := ca }

/-- C1: NextTask returns none iff no task is a candidate (status pending or
in_progress, strictly fewer attempts than max_attempts, all dependencies
completed); when candidates exist the returned task is a candidate with the
lexicographically minimum (priority, created_at) key among the candidates. -/
theorem C1_scheduler (db : TaskDB) :
    (nextTask db = none ↔ ∀ t ∈ db, ¬ CandidateProp db t) ∧
    (∀ t, nextTask db = some t → t ∈ db ∧ CandidateProp db t ∧
      ∀ u ∈ db, CandidateProp db u → KeyLE t u) := by
  constructor
  · rw [nextTask, selectMin_none_iff, List.filter_eq_nil_iff]
    constructor
    · intro h t ht hc
      exact h t ht ((isCandidate_iff db t).2 hc)
    · intro h t ht hc
      exact h t ht ((isCandidate_iff db t).1 (by simpa using hc))
  · intro t ht
    obtain ⟨hmem, hmin⟩ := selectMin_spec _ t ht
    have hmem' := List.mem_filter.1 hmem
    refine ⟨hmem'.1, (isCandidate_iff db t).1 (by simpa using hmem'.2), ?_⟩
    intro u hu hcu
    exact hmin u (List.mem_filter.2 ⟨hu, by simpa using (isCandidate_iff db u).2 hcu⟩)

theorem C1_scheduler_witness :
    CandidateProp [exampleTask "a" "pending" 5 1 [], exampleTask "b" "pending" 1 2 []]
      (exampleTask "b" "pending" 1 2 []) ∧
    KeyLE (exampleTask "b" "pending" 1 2 []) (exampleTask "a" "pending" 5 1 []) := by
  have h := (C1_scheduler [exampleTask "a" "pending" 5 1 [], exampleTask "b" "pending" 1 2 []]).2
    (exampleTask "b" "pending" 1 2 []) (by decide)
  exact ⟨h.2.1, h.2.2 _ (by simp [exampleTask]) (by simp [CandidateProp, exampleTask, StatusPending])⟩

theorem addLocked_ne_panic (now : Int) (db : TaskDB) (t : Task) :
    addLocked now db t ≠ OpOutcome.panic := by
  unfold addLocked
  cases findTask db t.id <;> simp

theorem splitAdds_ne_panic (now : Int) (pid : String) (pdeps : List String)
    (db : TaskDB) (subs : List Task) :
    splitAdds now pid pdeps db subs ≠ OpOutcome.panic := by
  induction subs generalizing db with
  | nil => simp [splitAdds]
  | cons s rest ih =>
    rw [splitAdds]
    rcases h : addLocked now db (subSeed pid pdeps s) with
      _ | _ | _
    · exact ih _
    · simp
    · exact absurd h (addLocked_ne_panic _ _ _)

/-- C10: with the parent present, SplitTask on an empty subtask list reaches
the out-of-range index subtasks[len(subtasks)-1] (a panic) instead of
returning an error; with a non-empty subtask list that index access never
panics. -/
theorem C10_splitTask_empty (now : Int) (db : TaskDB) (parentID : String) :
    ((findTask db parentID).isSome = true →
      splitTask now db parentID [] = OpOutcome.panic) ∧
    (∀ subtasks : List Task, subtasks ≠ [] →
      splitTask now db parentID subtasks ≠ OpOutcome.panic) := by
  constructor
  · intro h
    rw [splitTask]
    rcases hf : findTask db parentID with _ | parent
    · rw [hf] at h
      simp at h
    · simp [splitAdds]
  · intro subs hne
    rcases hf : findTask db parentID with _ | parent
    · rw [splitTask, hf]
      simp
    · rw [splitTask, hf]
      rcases ha : splitAdds now parentID parent.dependsOn db subs with _ | _ | _
      · rcases hl : subs.getLast? with _ | lastSub
        · exact absurd (List.getLast?_eq_none_iff.1 hl) hne
        · simp [ha, hl]
      · simp [ha]
      · exact absurd ha (splitAdds_ne_panic _ _ _ _ _)

theorem C10_splitTask_empty_witness :
    splitTask 7 [exampleTask "p" "pending" 1 1 []] "p" [] = OpOutcome.panic ∧
    splitTask 7 [exampleTask "p" "pending" 1 1 []] "p" [exampleTask "s" "pending" 1 0 []]
      ≠ OpOutcome.panic := by
  constructor
  · exact (C10_splitTask_empty 7 [exampleTask "p" "pending" 1 1 []] "p").1 (by decide)
  · exact (C10_splitTask_empty 7 [exampleTask "p" "pending" 1 1 []] "p").2 _ (by decide)

/-- C2 counterexample: a recorded schema version 0 (lower than the current
version 1) makes open fail with a migration-not-implemented error instead
of applying forward migrations, and a recorded version 2 (higher than the
current version) opens successfully instead of failing with a newer-schema
error. -/
theorem C2_migrate_counterexample :
    migrate (some 0) = Except.error
      ("schema version " ++ toString (0 : Int) ++ " is older than "
        ++ toString currentSchemaVersion ++ " — migration not yet implemented") ∧
    migrate (some 2) = Except.ok 2 := by
  exact ⟨rfl, rfl⟩

/-- C2 (amended): with no schema present, the full schema is applied, the
current version is recorded and open succeeds; with a recorded version
lower than the current one, open fails with an explicit
migration-not-yet-implemented error; with a recorded version equal to or
higher than the current one, open succeeds leaving the recorded version as
it is. -/
theorem C2_migrate (recorded : Option Int) :
    (recorded = none → migrate recorded = Except.ok currentSchemaVersion) ∧
    (∀ v, recorded = some v → v < currentSchemaVersion →
      migrate recorded = Except.error
        ("schema version " ++ toString v ++ " is older than "
          ++ toString currentSchemaVersion ++ " — migration not yet implemented")) ∧
    (∀ v, recorded = some v → currentSchemaVersion ≤ v →
      migrate recorded = Except.ok v) := by
  refine ⟨?_, ?_, ?_⟩
  · intro h
    rw [h]
    rfl
  · intro v hv hlt
    rw [hv, migrate]
    rw [if_pos hlt]
  · intro v hv hle
    rw [hv, migrate]
    rw [if_neg (not_lt.2 hle)]

theorem C2_migrate_witness :
    migrate (some 0) = Except.error
      ("schema version " ++ toString (0 : Int) ++ " is older than "
        ++ toString currentSchemaVersion ++ " — migration not yet implemented") ∧
    migrate (some 3) = Except.ok 3 :=
  ⟨(C2_migrate (some 0)).2.1 0 rfl (by decide),
   (C2_migrate (some 3)).2.2 3 rfl (by decide)⟩

theorem filter_id_all_true {l : List Bool} (h : ∀ b ∈ l, b = true) :
    l.filter (fun r => r) = l :=
  List.filter_eq_self.2 (fun b hb => by simp [h b hb])

theorem filter_id_all_false {l : List Bool} (h : ∀ b ∈ l, b = false) :
    l.filter (fun r => r) = [] :=
  List.filter_eq_nil_iff.2 (fun b hb => by simp [h b hb])

theorem trendOf_all_true (results : List Bool) (h : ∀ b ∈ results, b = true) :
    trendOf results = "stable" := by
  unfold trendOf
  split
  · rfl
  · rename_i hlen
    have h2 : 2 ≤ results.length := le_of_not_lt hlen
    have hrc : 1 ≤ results.length / 2 := by omega
    have hoc : 1 ≤ results.length - results.length / 2 := by omega
    have e1 : (results.take (results.length / 2)).filter (fun r => r)
        = results.take (results.length / 2) :=
      filter_id_all_true (fun b hb => h b (List.mem_of_mem_take hb))
    have e2 : (results.drop (results.length / 2)).filter (fun r => r)
        = results.drop (results.length / 2) :=
      filter_id_all_true (fun b hb => h b (List.mem_of_mem_drop hb))
    have lmin : min (results.length / 2) results.length = results.length / 2 := by omega
    have hr0 : ((results.length / 2 : Nat) : ℚ) ≠ 0 := Nat.cast_ne_zero.2 (by omega)
    have ho0 : ((results.length - results.length / 2 : Nat) : ℚ) ≠ 0 := Nat.cast_ne_zero.2 (by omega)
    simp only [e1, e2, List.length_take, List.length_drop, lmin, div_self hr0, div_self ho0]
    norm_num

theorem trendOf_true_then_false (results : List Bool)
    (hlen : 2 ≤ results.length)
    (ht : ∀ b ∈ results.take (results.length / 2), b = true)
    (hf : ∀ b ∈ results.drop (results.length / 2), b = false) :
    trendOf results = "improving" := by
  unfold trendOf
  rw [if_neg (not_lt.2 hlen)]
  have hrc : 1 ≤ results.length / 2 := by omega
  have lmin : min (results.length / 2) results.length = results.length / 2 := by omega
  have hr0 : ((results.length / 2 : Nat) : ℚ) ≠ 0 := Nat.cast_ne_zero.2 (by omega)
  simp only [filter_id_all_true ht, filter_id_all_false hf, List.length_take,
    List.length_nil, lmin, div_self hr0, Nat.cast_zero, zero_div]
  norm_num

theorem trendOf_false_then_true (results : List Bool)
    (hlen : 2 ≤ results.length)
    (hf : ∀ b ∈ results.take (results.length / 2), b = false)
    (ht : ∀ b ∈ results.drop (results.length / 2), b = true) :
    trendOf results = "degrading" := by
  unfold trendOf
  rw [if_neg (not_lt.2 hlen)]
  have hoc : 1 ≤ results.length - results.length / 2 := by omega
  have ho0 : ((results.length - results.length / 2 : Nat) : ℚ) ≠ 0 := Nat.cast_ne_zero.2 (by omega)
  simp only [filter_id_all_false hf, filter_id_all_true ht, List.length_drop,
    List.length_nil, div_self ho0, Nat.cast_zero, zero_div]
  norm_num

/-- C3 counterexample: the session whose snapshots are, in insertion
order, [false, true] reads newest-first as [true, false]: the first half
is all true and the second half all false, yet QualityTrend returns
"improving", not "degrading" as the claim states. -/
theorem C3_qualityTrend_counterexample :
    [false, true].reverse.take 2 = [true, false] ∧
    qualityTrend [false, true] 2 = "improving" :=
  ⟨rfl, trendOf_true_then_false [true, false] (by decide) (by decide) (by decide)⟩

/-- C3 (amended): with all overall_pass values true QualityTrend returns
"stable"; reading the most-recent N values newest-first, when the first
half is true and the second half false it returns "improving" (the recent
half passes, the older half failed), and in the mirrored case it returns
"degrading"; with fewer than 2 snapshots it returns "stable". -/
theorem C3_qualityTrend (snaps : List Bool) (lastN : Nat) :
    ((∀ b ∈ snaps.reverse.take lastN, b = true) →
      qualityTrend snaps lastN = "stable") ∧
    (2 ≤ (snaps.reverse.take lastN).length →
      (∀ b ∈ (snaps.reverse.take lastN).take ((snaps.reverse.take lastN).length / 2), b = true) →
      (∀ b ∈ (snaps.reverse.take lastN).drop ((snaps.reverse.take lastN).length / 2), b = false) →
      qualityTrend snaps lastN = "improving") ∧
    (2 ≤ (snaps.reverse.take lastN).length →
      (∀ b ∈ (snaps.reverse.take lastN).take ((snaps.reverse.take lastN).length / 2), b = false) →
      (∀ b ∈ (snaps.reverse.take lastN).drop ((snaps.reverse.take lastN).length / 2), b = true) →
      qualityTrend snaps lastN = "degrading") ∧
    ((snaps.reverse.take lastN).length < 2 → qualityTrend snaps lastN = "stable") := by
  refine ⟨?_, ?_, ?_, ?_⟩
  · intro h
    exact trendOf_all_true _ h
  · intro hlen ht hf
    exact trendOf_true_then_false _ hlen ht hf
  · intro hlen hf ht
    exact trendOf_false_then_true _ hlen hf ht
  · intro h
    unfold qualityTrend trendOf
    rw [if_pos h]

theorem C3_qualityTrend_witness :
    qualityTrend [true, true, true, false, false, false] 6 = "degrading" ∧
    qualityTrend [false, false, true, true] 4 = "improving" ∧
    qualityTrend [true, true, true] 3 = "stable" ∧
    qualityTrend [true] 1 = "stable" :=
  ⟨(C3_qualityTrend [true, true, true, false, false, false] 6).2.2.1 (by decide)
      (by decide) (by decide),
   (C3_qualityTrend [false, false, true, true] 4).2.1 (by decide) (by decide) (by decide),
   (C3_qualityTrend [true, true, true] 3).1 (by decide),
   (C3_qualityTrend [true] 1).2.2.2 (by decide)⟩

theorem check_exceeded_iff (b : Budget) (elapsed tokensUsed iterationsUsed : Int) :
    (check b elapsed tokensUsed iterationsUsed).exceeded = true ↔
      ((0 < b.maxTokens ∧ b.maxTokens ≤ tokensUsed) ∨
       (0 < b.maxDuration ∧ b.maxDuration ≤ elapsed) ∨
       (0 < b.maxIterations ∧ b.maxIterations ≤ iterationsUsed)) := by
  unfold check
  split_ifs <;> simp_all

/-- C8 counterexample: the budget with max_tokens = -1 has a non-zero token
limit that any nonnegative usage reaches or surpasses, yet Check does not
report Exceeded (the code's guard is `> 0`, so a negative limit also
disables the dimension). -/
theorem C8_check_counterexample :
    ((-1 : Int) ≠ 0 ∧ (-1 : Int) ≤ 0) ∧
    (check ⟨-1, 0, 0, 4/5⟩ 0 0 0).exceeded = false := by
  refine ⟨⟨by decide, by decide⟩, ?_⟩
  cases hE : (check ⟨-1, 0, 0, 4/5⟩ 0 0 0).exceeded with
  | false => rfl
  | true =>
    have h := (check_exceeded_iff ⟨-1, 0, 0, 4/5⟩ 0 0 0).1 hE
    norm_num at h

/-- C8 (amended): Check reports Exceeded exactly when some positive limit
is reached or surpassed; dimensions are evaluated tokens, duration,
iterations, and the first exceeded dimension's message is the reason; a
non-positive limit disables that dimension; and once Exceeded holds it
keeps holding for any pointwise-higher usage. -/
theorem C8_check (b : Budget) (elapsed tokensUsed iterationsUsed : Int) :
    ((check b elapsed tokensUsed iterationsUsed).exceeded = true ↔
      ((0 < b.maxTokens ∧ b.maxTokens ≤ tokensUsed) ∨
       (0 < b.maxDuration ∧ b.maxDuration ≤ elapsed) ∨
       (0 < b.maxIterations ∧ b.maxIterations ≤ iterationsUsed))) ∧
    (0 < b.maxTokens → b.maxTokens ≤ tokensUsed →
      (check b elapsed tokensUsed iterationsUsed).reason
        = tokenExceededMsg tokensUsed b.maxTokens) ∧
    (¬(0 < b.maxTokens ∧ b.maxTokens ≤ tokensUsed) →
      0 < b.maxDuration → b.maxDuration ≤ elapsed →
      (check b elapsed tokensUsed iterationsUsed).reason
        = durationExceededMsg elapsed b.maxDuration) ∧
    (¬(0 < b.maxTokens ∧ b.maxTokens ≤ tokensUsed) →
      ¬(0 < b.maxDuration ∧ b.maxDuration ≤ elapsed) →
      0 < b.maxIterations → b.maxIterations ≤ iterationsUsed →
      (check b elapsed tokensUsed iterationsUsed).reason
        = iterationExceededMsg iterationsUsed b.maxIterations) ∧
    (∀ elapsed' tokensUsed' iterationsUsed',
      elapsed ≤ elapsed' → tokensUsed ≤ tokensUsed' → iterationsUsed ≤ iterationsUsed' →
      (check b elapsed tokensUsed iterationsUsed).exceeded = true →
      (check b elapsed' tokensUsed' iterationsUsed').exceeded = true) := by
  refine ⟨check_exceeded_iff b elapsed tokensUsed iterationsUsed, ?_, ?_, ?_, ?_⟩
  · intro h1 h2
    unfold check
    rw [if_pos ⟨h1, h2⟩]
  · intro hn h1 h2
    unfold check
    rw [if_neg hn, if_pos ⟨h1, h2⟩]
  · intro hn hd h1 h2
    unfold check
    rw [if_neg hn, if_neg hd, if_pos ⟨h1, h2⟩]
  · intro e' t' i' he ht hi hx
    rcases (check_exceeded_iff b elapsed tokensUsed iterationsUsed).1 hx with h | h | h
    · exact (check_exceeded_iff b e' t' i').2 (Or.inl ⟨h.1, h.2.trans ht⟩)
    · exact (check_exceeded_iff b e' t' i').2 (Or.inr (Or.inl ⟨h.1, h.2.trans he⟩))
    · exact (check_exceeded_iff b e' t' i').2 (Or.inr (Or.inr ⟨h.1, h.2.trans hi⟩))

theorem C8_check_witness :
    (check ⟨100, 0, 0, 4/5⟩ 0 150 0).exceeded = true ∧
    (check ⟨100, 0, 0, 4/5⟩ 0 150 0).reason = tokenExceededMsg 150 100 ∧
    (check ⟨100, 0, 0, 4/5⟩ 0 500 7).exceeded = true :=
  have hb := C8_check ⟨100, 0, 0, 4/5⟩ 0 150 0
  ⟨hb.1.2 (Or.inl ⟨by decide, by decide⟩),
   hb.2.1 (by decide) (by decide),
   hb.2.2.2.2 0 500 7 (by decide) (by decide) (by decide)
     (hb.1.2 (Or.inl ⟨by decide, by decide⟩))⟩

theorem lookupCount_nil (k : String) : lookupCount [] k = 0 := rfl

theorem lookupCount_cons (a : String) (n : Nat) (rest : List (String × Nat)) (k : String) :
    lookupCount ((a, n) :: rest) k = if a = k then n else lookupCount rest k := by
  by_cases h : a = k
  · rw [if_pos h]
    unfold lookupCount
    rw [List.find?_cons_of_pos _ (by simpa using h)]
  · rw [if_neg h]
    unfold lookupCount
    rw [List.find?_cons_of_neg _ (by simpa using h)]

theorem lookupCount_bump (m : List (String × Nat)) (k' k : String) :
    lookupCount (bump m k') k = lookupCount m k + (if k' = k then 1 else 0) := by
  induction m with
  | nil =>
    by_cases h : k' = k
    · rw [show bump [] k' = [(k', 1)] from rfl, lookupCount_cons, if_pos h, lookupCount_nil,
        if_pos h]
    · rw [show bump [] k' = [(k', 1)] from rfl, lookupCount_cons, if_neg h, lookupCount_nil,
        if_neg h]
  | cons p rest ih =>
    obtain ⟨a, n⟩ := p
    by_cases hak' : a = k'
    · rw [show bump ((a, n) :: rest) k' = (a, n + 1) :: rest from by simp [bump, hak']]
      rw [lookupCount_cons, lookupCount_cons]
      by_cases hak : a = k
      · rw [if_pos hak, if_pos hak, if_pos (hak'.symm.trans hak)]
      · rw [if_neg hak, if_neg hak, if_neg (fun h => hak (hak'.trans h)), Nat.add_zero]
    · rw [show bump ((a, n) :: rest) k' = (a, n) :: bump rest k' from by simp [bump, hak']]
      rw [lookupCount_cons, lookupCount_cons]
      by_cases hak : a = k
      · rw [if_pos hak, if_pos hak, if_neg (fun h => hak' (hak.trans h.symm)), Nat.add_zero]
      · rw [if_neg hak, if_neg hak, ih]

theorem lookupCount_foldl_bump (tests : List String) (m : List (String × Nat)) (k : String) :
    lookupCount (tests.foldl bump m) k = lookupCount m k + tests.count k := by
  induction tests generalizing m with
  | nil => simp
  | cons t ts ih =>
    rw [List.foldl_cons, ih, lookupCount_bump, List.count_cons]
    by_cases h : t = k
    · have hb : (t == k) = true := beq_iff_eq.2 h
      rw [if_pos h, if_pos hb]
      omega
    · have hb : ¬ ((t == k) = true) := fun hc => h (beq_iff_eq.1 hc)
      rw [if_neg h, if_neg hb]
      omega

theorem ftt_fold (raws : List String) (m : List (String × Nat)) (k : String) :
    lookupCount (raws.foldl (fun m raw =>
      match parseFailedTests raw with
      | none => m
      | some tests => tests.foldl bump m) m) k
    = lookupCount m k
      + (raws.map (fun raw => ((parseFailedTests raw).getD []).count k)).sum := by
  induction raws generalizing m with
  | nil => simp
  | cons raw rest ih =>
    rw [List.foldl_cons, List.map_cons, List.sum_cons]
    rcases h : parseFailedTests raw with _ | tests
    · simp only [h]
      rw [ih]
      simp
    · simp only [h]
      rw [ih, lookupCount_foldl_bump]
      simp only [Option.getD_some]
      omega

/-- C9 counterexample: with snapshots whose failed-tests payloads are, in
insertion order, `["a"]` and then the empty string, the most-recent 1
snapshot has the empty (invalid JSON) payload, so the claim's map is
empty; but the query filters empty payloads out before applying LIMIT,
reaches back to the older snapshot, and returns "a" with count 1. -/
theorem C9_failingTestTrend_counterexample :
    lookupCount (failingTestTrend [some "[\"a\"]", some ""] 1) "a" = 1 ∧
    [some "[\"a\"]", some ""].reverse.take 1 = [some ""] ∧
    parseFailedTests "" = none := by
  exact ⟨rfl, rfl, rfl⟩

/-- C9 (amended): FailingTestTrend sends each test name to its number of
appearances in the parsed failed-tests lists of the most-recent N
snapshots whose payload is non-NULL and non-empty (such snapshots count
toward N even when their payload fails to parse; a payload that is not a
JSON string array contributes no counts and never fails the query). -/
theorem C9_failingTestTrend (snaps : List (Option String)) (lastN : Nat) (name : String) :
    lookupCount (failingTestTrend snaps lastN) name =
      ((selectedPayloads snaps lastN).map
        (fun raw => ((parseFailedTests raw).getD []).count name)).sum := by
  unfold failingTestTrend
  rw [ftt_fold, lookupCount_nil, Nat.zero_add]

theorem addDefaults_id (now : Int) (t : Task) : (addDefaults now t).id = t.id := by
  unfold addDefaults
  dsimp only
  split_ifs <;> rfl

theorem addDefaults_parentID (now : Int) (t : Task) :
    (addDefaults now t).parentID = t.parentID := by
  unfold addDefaults
  dsimp only
  split_ifs <;> rfl

theorem addDefaults_dependsOn (now : Int) (t : Task) :
    (addDefaults now t).dependsOn = t.dependsOn := by
  unfold addDefaults
  dsimp only
  split_ifs <;> rfl

theorem addDefaults_status (now : Int) (t : Task) :
    (addDefaults now t).status = t.status := by
  unfold addDefaults
  dsimp only
  split_ifs <;> rfl

theorem findTask_some_mem {db : TaskDB} {id : String} {t : Task}
    (h : findTask db id = some t) : t ∈ db ∧ t.id = id := by
  unfold findTask at h
  exact ⟨List.mem_of_find?_eq_some h, by simpa using List.find?_some h⟩

theorem findTask_none_iff {db : TaskDB} {id : String} :
    findTask db id = none ↔ ∀ t ∈ db, t.id ≠ id := by
  unfold findTask
  rw [List.find?_eq_none]
  simp

theorem findTask_append_left {db r : TaskDB} {id : String} {t : Task}
    (h : findTask db id = some t) : findTask (db ++ r) id = some t := by
  induction db with
  | nil => simp [findTask] at h
  | cons x xs ih =>
    unfold findTask at h ⊢
    rw [List.cons_append, List.find?_cons] at *
    rcases hx : (x.id == id) with _ | _
    · rw [hx] at h
      exact ih h
    · rw [hx] at h
      exact h

theorem findTask_append_right {db r : TaskDB} {id : String}
    (h : findTask db id = none) : findTask (db ++ r) id = findTask r id := by
  induction db with
  | nil => rfl
  | cons x xs ih =>
    unfold findTask at h ⊢
    rw [List.find?_cons] at h
    rw [List.cons_append, List.find?_cons]
    rcases hx : (x.id == id) with _ | _
    · rw [hx] at h
      exact ih h
    · rw [hx] at h
      exact absurd h (by simp)

theorem updFirst_mem_src {l : TaskDB} {id : String} {f : Task → Task} :
    ∀ t' ∈ updFirst l id f, ∃ t ∈ l, t' = t ∨ t' = f t := by
  induction l with
  | nil => simp [updFirst]
  | cons x xs ih =>
    intro t' ht'
    unfold updFirst at ht'
    split at ht'
    · rcases List.mem_cons.1 ht' with h | h
      · exact ⟨x, List.mem_cons_self x xs, Or.inr h⟩
      · exact ⟨t', List.mem_cons.2 (Or.inr h), Or.inl rfl⟩
    · rcases List.mem_cons.1 ht' with h | h
      · exact ⟨x, List.mem_cons_self x xs, Or.inl h⟩
      · obtain ⟨t, ht, hor⟩ := ih t' h
        exact ⟨t, List.mem_cons.2 (Or.inr ht), hor⟩

theorem updFirst_mem_img {l : TaskDB} {id : String} {f : Task → Task} :
    ∀ t ∈ l, ∃ t' ∈ updFirst l id f, t' = t ∨ t' = f t := by
  induction l with
  | nil => simp
  | cons x xs ih =>
    intro t ht
    unfold updFirst
    split
    · rcases List.mem_cons.1 ht with h | h
      · exact ⟨f x, List.mem_cons_self _ _, Or.inr (by rw [h])⟩
      · exact ⟨t, List.mem_cons.2 (Or.inr h), Or.inl rfl⟩
    · rcases List.mem_cons.1 ht with h | h
      · exact ⟨x, List.mem_cons_self _ _, Or.inl h.symm⟩
      · obtain ⟨t', ht', hor⟩ := ih t h
        exact ⟨t', List.mem_cons.2 (Or.inr ht'), hor⟩

theorem findTask_updFirst_self {l : TaskDB} {id : String} {f : Task → Task}
    (hf : ∀ t, (f t).id = t.id) :
    findTask (updFirst l id f) id = (findTask l id).map f := by
  induction l with
  | nil => rfl
  | cons x xs ih =>
    unfold updFirst
    rcases hx : (x.id == id) with _ | _
    · rw [if_neg (by simp)]
      unfold findTask at ih ⊢
      rw [List.find?_cons, hx, List.find?_cons, hx]
      exact ih
    · rw [if_pos rfl]
      unfold findTask
      rw [List.find?_cons, List.find?_cons, hx]
      have hgx : ((f x).id == id) = true := by
        rw [hf x]
        exact hx
      rw [hgx]
      rfl

theorem findTask_map {l : TaskDB} {g : Task → Task} (hg : ∀ t, (g t).id = t.id)
    (id : String) : findTask (l.map g) id = (findTask l id).map g := by
  induction l with
  | nil => rfl
  | cons x xs ih =>
    unfold findTask at ih ⊢
    rw [List.map_cons, List.find?_cons, List.find?_cons]
    rcases hx : (x.id == id) with _ | _
    · have hgx : ((g x).id == id) = false := by
        rw [hg x]
        exact hx
      rw [hgx]
      exact ih
    · have hgx : ((g x).id == id) = true := by
        rw [hg x]
        exact hx
      rw [hgx]
      rfl

theorem splitAdds_ok_shape (now : Int) (p : String) (pdeps : List String) :
    ∀ (subs : List Task) (db db1 : TaskDB),
      splitAdds now p pdeps db subs = OpOutcome.ok db1 →
      db1 = db ++ subs.map (fun s => addDefaults now (subSeed p pdeps s)) := by
  intro subs
  induction subs with
  | nil =>
    intro db db1 h
    simp only [splitAdds, OpOutcome.ok.injEq] at h
    simp [h]
  | cons s rest ih =>
    intro db db1 h
    rw [splitAdds] at h
    cases ha : addLocked now db (subSeed p pdeps s) with
    | ok db' =>
      simp only [ha] at h
      unfold addLocked at ha
      cases hfind : findTask db (subSeed p pdeps s).id with
      | none =>
        simp only [hfind, OpOutcome.ok.injEq] at ha
        rw [ih _ _ h, ← ha]
        simp
      | some u =>
        simp only [hfind] at ha
        exact OpOutcome.noConfusion ha
    | fail e dbE =>
      simp only [ha] at h
      exact OpOutcome.noConfusion h
    | panic =>
      simp only [ha] at h
      exact OpOutcome.noConfusion h

theorem splitAdds_ok_fresh (now : Int) (p : String) (pdeps : List String) :
    ∀ (subs : List Task) (db db1 : TaskDB),
      splitAdds now p pdeps db subs = OpOutcome.ok db1 →
      ∀ s ∈ subs, findTask db s.id = none := by
  intro subs
  induction subs with
  | nil =>
    intro db db1 _ s hs
    simp at hs
  | cons s0 rest ih =>
    intro db db1 h s hs
    rw [splitAdds] at h
    cases ha : addLocked now db (subSeed p pdeps s0) with
    | ok db' =>
      simp only [ha] at h
      unfold addLocked at ha
      cases hfind : findTask db (subSeed p pdeps s0).id with
      | none =>
        rcases List.mem_cons.1 hs with hs0 | hrest
        · rw [hs0]
          exact hfind
        · simp only [hfind, OpOutcome.ok.injEq] at ha
          have hnext := ih _ _ h s hrest
          rw [← ha] at hnext
          cases hcur : findTask db s.id with
          | none => rfl
          | some u =>
            have h2 : findTask (db ++ [addDefaults now (subSeed p pdeps s0)]) s.id = some u :=
            findTask_append_left hcur
            rw [hnext] at h2
            exact Option.noConfusion h2
      | some u =>
        simp only [hfind] at ha
        exact OpOutcome.noConfusion ha
    | fail e dbE =>
      simp only [ha] at h
      exact OpOutcome.noConfusion h
    | panic =>
      simp only [ha] at h
      exact OpOutcome.noConfusion h

theorem dedupGo_subset : ∀ (seen l : List String), ∀ x ∈ dedupGo seen l, x ∈ l := by
  intro seen l
  induction l generalizing seen with
  | nil => simp [dedupGo]
  | cons a as ih =>
    intro x hx
    unfold dedupGo at hx
    split at hx
    · exact List.mem_cons.2 (Or.inr (ih _ x hx))
    · rcases List.mem_cons.1 hx with h | h
      · exact List.mem_cons.2 (Or.inl h)
      · exact List.mem_cons.2 (Or.inr (ih _ x h))

theorem firstMissing_some_of_missing {db : TaskDB} :
    ∀ (oldIDs : List String), (∃ i ∈ oldIDs, findTask db i = none) →
      ∃ j, firstMissing db oldIDs = some j := by
  intro oldIDs
  induction oldIDs with
  | nil => simp
  | cons a as ih =>
    rintro ⟨i, hi, hnone⟩
    unfold firstMissing
    rcases ha : findTask db a with _ | u
    · exact ⟨a, rfl⟩
    · rcases List.mem_cons.1 hi with h | h
      · rw [h] at hnone
        rw [hnone] at ha
        exact absurd ha (by simp)
      · exact ih ⟨i, h, hnone⟩

theorem addLocked_ok {now : Int} {db : TaskDB} {t : Task} {db' : TaskDB}
    (h : addLocked now db t = OpOutcome.ok db') :
    db' = db ++ [addDefaults now t] ∧ findTask db t.id = none := by
  unfold addLocked at h
  cases hf : findTask db t.id with
  | none =>
    simp only [hf, OpOutcome.ok.injEq] at h
    exact ⟨h.symm, rfl⟩
  | some u =>
    simp only [hf] at h
    exact OpOutcome.noConfusion h

theorem redirectDeps_id (p lid : String) (t : Task) : (redirectDeps p lid t).id = t.id := rfl

theorem markDeferred_id (t : Task) : (markDeferred t).id = t.id := rfl

theorem rewriteDeps_id (oldIDs : List String) (nid : String) (t : Task) :
    (rewriteDeps oldIDs nid t).id = t.id := rfl

theorem splitTask_ok_shape {now : Int} {db : TaskDB} {p : String} {subs : List Task}
    {db' : TaskDB} (h : splitTask now db p subs = OpOutcome.ok db') :
    ∃ parent lastSub db1,
      findTask db p = some parent ∧
      splitAdds now p parent.dependsOn db subs = OpOutcome.ok db1 ∧
      subs.getLast? = some lastSub ∧
      db' = updFirst (db1.map (redirectDeps p lastSub.id)) p markDeferred := by
  unfold splitTask at h
  cases hf : findTask db p with
  | none =>
    simp only [hf] at h
    exact OpOutcome.noConfusion h
  | some parent =>
    simp only [hf] at h
    cases ha : splitAdds now p parent.dependsOn db subs with
    | ok db1 =>
      simp only [ha] at h
      cases hl : subs.getLast? with
      | none =>
        simp only [hl] at h
        exact OpOutcome.noConfusion h
      | some lastSub =>
        simp only [hl, OpOutcome.ok.injEq] at h
        exact ⟨parent, lastSub, db1, rfl, ha, rfl, h.symm⟩
    | fail e dbE =>
      simp only [ha] at h
      exact OpOutcome.noConfusion h
    | panic =>
      simp only [ha] at h
      exact OpOutcome.noConfusion h

theorem mergeTasks_ok_shape {now : Int} {db : TaskDB} {nt : Task} {oldIDs : List String}
    {db'' : TaskDB} (h : mergeTasks now db nt oldIDs = OpOutcome.ok db'') :
    firstMissing db oldIDs = none ∧
    db'' = ((db.map (rewriteDeps oldIDs nt.id)).filter (fun t => t.id ∉ oldIDs))
      ++ [addDefaults now (mergedNewTask db nt oldIDs)] := by
  unfold mergeTasks at h
  cases hm : firstMissing db oldIDs with
  | none =>
    simp only [hm] at h
    obtain ⟨hshape, _⟩ := addLocked_ok h
    exact ⟨rfl, hshape⟩
  | some i =>
    simp only [hm] at h
    exact OpOutcome.noConfusion h

/-- C4 counterexample: SplitTask with a first fresh subtask and a second
subtask whose id duplicates the existing task "x" returns a duplicate-id
error, yet the first subtask has already been inserted: the task map after
the call differs from the map before it. -/
theorem C4_atomicity_counterexample :
    splitTask 9 [exampleTask "p" "pending" 1 1 [], exampleTask "x" "pending" 1 2 []] "p"
        [exampleTask "s1" "pending" 1 0 [], exampleTask "x" "pending" 1 0 []]
      = OpOutcome.fail "adding subtask x: task x already exists"
          [exampleTask "p" "pending" 1 1 [], exampleTask "x" "pending" 1 2 [],
            { exampleTask "s1" "pending" 1 9 [] with parentID := "p" }] ∧
    [exampleTask "p" "pending" 1 1 [], exampleTask "x" "pending" 1 2 [],
        { exampleTask "s1" "pending" 1 9 [] with parentID := "p" }]
      ≠ [exampleTask "p" "pending" 1 1 [], exampleTask "x" "pending" 1 2 []] := by
  exact ⟨by decide, by decide⟩

/-- C4 (amended): unknown-task errors leave the DB exactly unchanged
(SplitTask with an unknown parent; MergeTasks with an unknown old id,
which is checked before any mutation), and on success the documented
mutation is applied: SplitTask leaves the parent deferred, every subtask
present with the parent id, and no remaining edge targeting the parent;
MergeTasks leaves the new task present, no surviving task with an old id
(other than the new id itself), and every surviving task's depends_on
rewritten with old ids replaced by the new id and deduplicated.  A
duplicate-id failure, however, occurs after partial mutation and does not
restore the previous state. -/
theorem C4_structural_ops (now : Int) (db : TaskDB) :
    (∀ p subs, findTask db p = none →
      splitTask now db p subs = OpOutcome.fail ("task " ++ p ++ " not found") db) ∧
    (∀ nt oldIDs, (∃ i ∈ oldIDs, findTask db i = none) →
      ∃ i, mergeTasks now db nt oldIDs = OpOutcome.fail ("task " ++ i ++ " not found") db) ∧
    (∀ p subs db', splitTask now db p subs = OpOutcome.ok db' →
      (∃ pt, findTask db' p = some pt ∧ pt.status = StatusDeferred) ∧
      (∀ s ∈ subs, ∃ st ∈ db', st.id = s.id ∧ st.parentID = p) ∧
      (∀ t ∈ db', p ∉ t.dependsOn)) ∧
    (∀ nt oldIDs db'', mergeTasks now db nt oldIDs = OpOutcome.ok db'' →
      (∃ t ∈ db'', t.id = nt.id) ∧
      (∀ t ∈ db'', t.id ∉ oldIDs ∨ t.id = nt.id) ∧
      (∀ t ∈ db, t.id ∉ oldIDs → t.id ≠ nt.id →
        ∃ t' ∈ db'', t'.id = t.id ∧ t'.dependsOn = (rewriteDeps oldIDs nt.id t).dependsOn)) := by
  refine ⟨?_, ?_, ?_, ?_⟩
  · intro p subs hnone
    unfold splitTask
    rw [hnone]
  · intro nt oldIDs hmiss
    obtain ⟨j, hj⟩ := firstMissing_some_of_missing oldIDs hmiss
    refine ⟨j, ?_⟩
    unfold mergeTasks
    rw [hj]
  · intro p subs db' h
    obtain ⟨parent, lastSub, db1, hf, ha, hl, hdb'⟩ := splitTask_ok_shape h
    have hshape := splitAdds_ok_shape now p parent.dependsOn subs db db1 ha
    have hfresh := splitAdds_ok_fresh now p parent.dependsOn subs db db1 ha
    have hlmem : lastSub ∈ subs := by
      have hx : lastSub ∈ subs.getLast? := by
        rw [Option.mem_def]
        exact hl
      obtain ⟨h9, he⟩ := List.mem_getLast?_eq_getLast hx
      rw [he]
      exact List.getLast_mem h9
    have hlne : lastSub.id ≠ p := by
      intro hcontra
      have h0 := hfresh lastSub hlmem
      rw [hcontra, hf] at h0
      exact Option.noConfusion h0
    refine ⟨?_, ?_, ?_⟩
    · have h1 : findTask db1 p = some parent := by
        rw [hshape]
        exact findTask_append_left hf
      have h2 := @findTask_map db1 (redirectDeps p lastSub.id) (redirectDeps_id p lastSub.id) p
      rw [h1] at h2
      have h3 := @findTask_updFirst_self (db1.map (redirectDeps p lastSub.id)) p markDeferred
        markDeferred_id
      rw [hdb', h3, h2]
      exact ⟨markDeferred (redirectDeps p lastSub.id parent), rfl, rfl⟩
    · intro s hs
      have hmem1 : addDefaults now (subSeed p parent.dependsOn s) ∈ db1 := by
        rw [hshape]
        exact List.mem_append_right _ (List.mem_map_of_mem _ hs)
      have hmem2 := List.mem_map_of_mem (redirectDeps p lastSub.id) hmem1
      obtain ⟨st, hst, hor⟩ := updFirst_mem_img _ hmem2
      rw [← hdb'] at hst
      refine ⟨st, hst, ?_⟩
      have hid : (addDefaults now (subSeed p parent.dependsOn s)).id = s.id :=
        addDefaults_id _ _
      have hpid : (addDefaults now (subSeed p parent.dependsOn s)).parentID = p :=
        addDefaults_parentID _ _
      rcases hor with h1 | h1 <;> rw [h1] <;> exact ⟨hid, hpid⟩
    · intro t ht hpin
      rw [hdb'] at ht
      obtain ⟨t2, ht2, hor⟩ := updFirst_mem_src t ht
      have hdeps : t.dependsOn = t2.dependsOn := by
        rcases hor with h1 | h1 <;> rw [h1] <;> try rfl
      obtain ⟨t1, _, ht1eq⟩ := List.mem_map.1 ht2
      have hdeps2 : t2.dependsOn
          = t1.dependsOn.map (fun d => if d = p then lastSub.id else d) := by
        rw [← ht1eq]
        rfl
      rw [hdeps, hdeps2] at hpin
      obtain ⟨d, _, hd⟩ := List.mem_map.1 hpin
      by_cases hdp : d = p
      · rw [if_pos hdp] at hd
        exact hlne hd
      · rw [if_neg hdp] at hd
        exact hdp hd
  · intro nt oldIDs db'' h
    obtain ⟨hm, hshape⟩ := mergeTasks_ok_shape h
    refine ⟨?_, ?_, ?_⟩
    · refine ⟨addDefaults now (mergedNewTask db nt oldIDs), ?_, ?_⟩
      · rw [hshape]
        exact List.mem_append_right _ (List.mem_cons_self _ _)
      · rw [addDefaults_id]
        rfl
    · intro t ht
      rw [hshape] at ht
      rcases List.mem_append.1 ht with h1 | h1
      · left
        have h2 := (List.mem_filter.1 h1).2
        simpa using h2
      · right
        rcases List.mem_cons.1 h1 with h2 | h2
        · rw [h2, addDefaults_id]
          rfl
        · simp at h2
    · intro t ht hnot hne
      refine ⟨rewriteDeps oldIDs nt.id t, ?_, rfl, rfl⟩
      rw [hshape]
      apply List.mem_append_left
      refine List.mem_filter.2 ⟨List.mem_map_of_mem _ ht, ?_⟩
      rw [rewriteDeps_id]
      simpa using hnot

theorem C4_structural_ops_witness :
    splitTask 5 [exampleTask "q" "pending" 1 1 []] "zz" []
      = OpOutcome.fail ("task " ++ "zz" ++ " not found") [exampleTask "q" "pending" 1 1 []] ∧
    (∃ i, mergeTasks 5 [] (exampleTask "m" "pending" 1 1 []) ["ghost"]
      = OpOutcome.fail ("task " ++ i ++ " not found") []) :=
  ⟨(C4_structural_ops 5 [exampleTask "q" "pending" 1 1 []]).1 "zz" [] (by decide),
   (C4_structural_ops 5 []).2.1 (exampleTask "m" "pending" 1 1 []) ["ghost"]
     ⟨"ghost", by decide, rfl⟩⟩

theorem appendDep_id (dep : String) (t : Task) : (appendDep dep t).id = t.id := rfl

theorem addDependency_ok_shape {db : TaskDB} {a b : String} {db' : TaskDB}
    (h : addDependency db a b = OpOutcome.ok db') :
    ∃ task u, findTask db a = some task ∧ findTask db b = some u ∧
      (db' = db ∨ db' = updFirst db a (appendDep b)) := by
  unfold addDependency at h
  cases hf : findTask db a with
  | none =>
    simp only [hf] at h
    exact OpOutcome.noConfusion h
  | some task =>
    simp only [hf] at h
    cases hg : findTask db b with
    | none =>
      simp only [hg] at h
      exact OpOutcome.noConfusion h
    | some u =>
      simp only [hg] at h
      by_cases hmem : b ∈ task.dependsOn
      · rw [if_pos hmem] at h
        refine ⟨task, u, rfl, rfl, Or.inl ?_⟩
        cases h
        rfl
      · rw [if_neg hmem] at h
        by_cases hcyc : wouldCreateCycle (updFirst db a (appendDep b)) a b = true
        · rw [if_pos hcyc] at h
          exact OpOutcome.noConfusion h
        · rw [if_neg hcyc] at h
          refine ⟨task, u, rfl, rfl, Or.inr ?_⟩
          cases h
          rfl

theorem mem_updFirst_map_id {l : TaskDB} {id0 : String} {f g : Task → Task}
    (hf : ∀ t, (f t).id = t.id) (hg : ∀ t, (g t).id = t.id) {u : Task} (hu : u ∈ l) :
    ∃ u' ∈ updFirst (l.map f) id0 g, u'.id = u.id := by
  have h1 := List.mem_map_of_mem f hu
  obtain ⟨u', hu', hor⟩ := updFirst_mem_img _ h1
  refine ⟨u', hu', ?_⟩
  rcases hor with h | h
  · rw [h, hf]
  · rw [h, hg, hf]

/-- C5 counterexample: merging two tasks one of which depends on the other
(a chain a ← b ← c, merged into a fresh task ab) succeeds but leaves the
merged task depending on the deleted old id "a": a dependency edge whose
target no longer exists, violating the endpoint invariant the claim
asserts, and a depends_on entry that is a member of old_ids. -/
theorem C5_endpoints_counterexample :
    EndpointsOK [exampleTask "a" "pending" 1 1 [], exampleTask "b" "pending" 1 2 ["a"],
      exampleTask "c" "pending" 1 3 ["b"]] ∧
    mergeTasks 9 [exampleTask "a" "pending" 1 1 [], exampleTask "b" "pending" 1 2 ["a"],
        exampleTask "c" "pending" 1 3 ["b"]] (exampleTask "ab" "pending" 1 4 []) ["a", "b"]
      = OpOutcome.ok [exampleTask "c" "pending" 1 3 ["ab"], exampleTask "ab" "pending" 1 4 ["a"]] ∧
    "a" ∈ (exampleTask "ab" "pending" 1 4 ["a"]).dependsOn ∧
    findTask [exampleTask "c" "pending" 1 3 ["ab"], exampleTask "ab" "pending" 1 4 ["a"]] "a"
      = none ∧
    ¬ EndpointsOK [exampleTask "c" "pending" 1 3 ["ab"], exampleTask "ab" "pending" 1 4 ["a"]] := by
  refine ⟨?_, by decide, by decide, by decide, ?_⟩
  · unfold EndpointsOK
    decide
  · unfold EndpointsOK
    decide

/-- C5 (amended): starting from a state where every depends_on entry names
a present task, every successful operation preserves that invariant,
provided the operation's own inputs are well-formed: the added task's
depends_on references existing tasks; each subtask's own depends_on
references existing tasks; the merged task's id is not an old id, its own
depends_on references existing tasks outside old_ids, and no old task
depends on another old task.  Under those hypotheses, after MergeTasks no
depends_on list contains any member of old_ids. -/
theorem C5_endpoints (now : Int) (db : TaskDB) (hok : EndpointsOK db) :
    (∀ task db', (∀ d ∈ task.dependsOn, ∃ u ∈ db, u.id = d) →
      add now db task = OpOutcome.ok db' → EndpointsOK db') ∧
    (∀ a b db', addDependency db a b = OpOutcome.ok db' → EndpointsOK db') ∧
    (∀ p subs db', (∀ s ∈ subs, ∀ d ∈ s.dependsOn, ∃ u ∈ db, u.id = d) →
      splitTask now db p subs = OpOutcome.ok db' → EndpointsOK db') ∧
    (∀ nt oldIDs db'', nt.id ∉ oldIDs →
      (∀ d ∈ nt.dependsOn, d ∉ oldIDs ∧ ∃ u ∈ db, u.id = d) →
      (∀ t ∈ db, t.id ∈ oldIDs → ∀ d ∈ t.dependsOn, d ∉ oldIDs) →
      mergeTasks now db nt oldIDs = OpOutcome.ok db'' →
      EndpointsOK db'' ∧ ∀ t ∈ db'', ∀ d ∈ t.dependsOn, d ∉ oldIDs) := by
  refine ⟨?_, ?_, ?_, ?_⟩
  · intro task db' hdeps h
    obtain ⟨hshape, _⟩ := addLocked_ok h
    intro t ht d hd
    rw [hshape] at ht
    rcases List.mem_append.1 ht with h1 | h1
    · obtain ⟨u, hu, hid⟩ := hok t h1 d hd
      exact ⟨u, by rw [hshape]; exact List.mem_append_left _ hu, hid⟩
    · rcases List.mem_cons.1 h1 with h2 | h2
      · rw [h2, addDefaults_dependsOn] at hd
        obtain ⟨u, hu, hid⟩ := hdeps d hd
        exact ⟨u, by rw [hshape]; exact List.mem_append_left _ hu, hid⟩
      · simp at h2
  · intro a b db' h
    obtain ⟨task, u, hfa, hfb, hor⟩ := addDependency_ok_shape h
    rcases hor with h1 | h1
    · rw [h1]
      exact hok
    · intro t ht d hd
      rw [h1] at ht
      obtain ⟨t2, ht2, hor2⟩ := updFirst_mem_src t ht
      have hlift : ∀ v : Task, v ∈ db → ∃ v' ∈ db', v'.id = v.id := by
        intro v hv
        obtain ⟨v', hv', hor3⟩ := @updFirst_mem_img db a (appendDep b) v hv
        refine ⟨v', by rw [h1]; exact hv', ?_⟩
        rcases hor3 with h3 | h3
        · rw [h3]
        · rw [h3, appendDep_id]
      have hds : t.dependsOn = t2.dependsOn ∨ t.dependsOn = t2.dependsOn ++ [b] := by
        rcases hor2 with h2 | h2
        · rw [h2]
          exact Or.inl rfl
        · rw [h2]
          exact Or.inr rfl
      have hcases : d ∈ t2.dependsOn ∨ d = b := by
        rcases hds with h2 | h2
        · rw [h2] at hd
          exact Or.inl hd
        · rw [h2] at hd
          rcases List.mem_append.1 hd with h3 | h3
          · exact Or.inl h3
          · simp at h3
            exact Or.inr h3
      rcases hcases with h2 | h2
      · obtain ⟨v, hv, hvid⟩ := hok t2 ht2 d h2
        obtain ⟨v', hv', hvid'⟩ := hlift v hv
        exact ⟨v', hv', hvid'.trans hvid⟩
      · obtain ⟨hu, huid⟩ := findTask_some_mem hfb
        obtain ⟨v', hv', hvid'⟩ := hlift u hu
        exact ⟨v', hv', by rw [hvid', huid, h2]⟩
  · intro p subs db' hsubs h
    obtain ⟨parent, lastSub, db1, hf, ha, hl, hdb'⟩ := splitTask_ok_shape h
    have hshape := splitAdds_ok_shape now p parent.dependsOn subs db db1 ha
    have hlmem : lastSub ∈ subs := by
      have hx : lastSub ∈ subs.getLast? := by
        rw [Option.mem_def]
        exact hl
      obtain ⟨h9, he⟩ := List.mem_getLast?_eq_getLast hx
      rw [he]
      exact List.getLast_mem h9
    have hparent := findTask_some_mem hf
    have hlift : ∀ v : Task, v ∈ db1 → ∃ v' ∈ db', v'.id = v.id := by
      intro v hv
      obtain ⟨v', hv', hid⟩ := mem_updFirst_map_id (redirectDeps_id p lastSub.id)
        markDeferred_id hv
      exact ⟨v', by rw [hdb']; exact hv', hid⟩
    have hexists : ∀ d : String, d ≠ p → (∃ u ∈ db, u.id = d) → ∃ u' ∈ db', u'.id = d := by
      intro d _ hu
      obtain ⟨u, hu1, hu2⟩ := hu
      obtain ⟨u', hu', hid⟩ := hlift u (by rw [hshape]; exact List.mem_append_left _ hu1)
      exact ⟨u', hu', hid.trans hu2⟩
    intro t ht d hd
    rw [hdb'] at ht
    obtain ⟨t2, ht2, hor⟩ := updFirst_mem_src t ht
    have hdeps : t.dependsOn = t2.dependsOn := by
      rcases hor with h1 | h1 <;> rw [h1] <;> try rfl
    obtain ⟨t1, ht1, ht1eq⟩ := List.mem_map.1 ht2
    have hdeps2 : t2.dependsOn
        = t1.dependsOn.map (fun d => if d = p then lastSub.id else d) := by
      rw [← ht1eq]
      rfl
    rw [hdeps, hdeps2] at hd
    obtain ⟨d0, hd0, hd0eq⟩ := List.mem_map.1 hd
    by_cases hd0p : d0 = p
    · rw [if_pos hd0p] at hd0eq
      have hsubmem : addDefaults now (subSeed p parent.dependsOn lastSub) ∈ db1 := by
        rw [hshape]
        exact List.mem_append_right _ (List.mem_map_of_mem _ hlmem)
      obtain ⟨u', hu', hid⟩ := hlift _ hsubmem
      refine ⟨u', hu', ?_⟩
      rw [hid, addDefaults_id, ← hd0eq]
      rfl
    · rw [if_neg hd0p] at hd0eq
      rw [← hd0eq]
      have hsrc : ∃ u ∈ db, u.id = d0 := by
        rw [hshape] at ht1
        rcases List.mem_append.1 ht1 with h1 | h1
        · exact hok t1 h1 d0 hd0
        · obtain ⟨s, hs, hseq⟩ := List.mem_map.1 h1
          rw [← hseq, addDefaults_dependsOn] at hd0
          rcases List.mem_append.1 hd0 with h2 | h2
          · exact hsubs s hs d0 h2
          · exact hok parent hparent.1 d0 h2
      exact hexists d0 hd0p hsrc
  · intro nt oldIDs db'' hnew hntdeps holddeps h
    obtain ⟨hm, hshape⟩ := mergeTasks_ok_shape h
    have hmerged_mem : addDefaults now (mergedNewTask db nt oldIDs) ∈ db'' := by
      rw [hshape]
      exact List.mem_append_right _ (List.mem_cons_self _ _)
    have hmerged_id : (addDefaults now (mergedNewTask db nt oldIDs)).id = nt.id := by
      rw [addDefaults_id]
      rfl
    have hsurvive : ∀ v : Task, v ∈ db → v.id ∉ oldIDs → ∃ v' ∈ db'', v'.id = v.id := by
      intro v hv hvnot
      refine ⟨rewriteDeps oldIDs nt.id v, ?_, rfl⟩
      rw [hshape]
      apply List.mem_append_left
      refine List.mem_filter.2 ⟨List.mem_map_of_mem _ hv, ?_⟩
      rw [rewriteDeps_id]
      simpa using hvnot
    have hcollected : ∀ d ∈ collectedOldDeps db nt.id oldIDs,
        d ∉ oldIDs ∧ ∃ u ∈ db, u.id = d := by
      intro d hd
      have hd1 := dedupGo_subset _ _ d hd
      have hd2 := List.mem_filter.1 hd1
      obtain ⟨i, hi, hdi⟩ := List.mem_flatMap.1 hd2.1
      cases hfi : findTask db i with
      | none =>
        rw [hfi] at hdi
        simp at hdi
      | some ti =>
        rw [hfi] at hdi
        obtain ⟨hti_mem, hti_id⟩ := findTask_some_mem hfi
        have hnot := holddeps ti hti_mem (by rw [hti_id]; exact hi) d hdi
        exact ⟨hnot, hok ti hti_mem d hdi⟩
    have hmain : ∀ t ∈ db'', ∀ d ∈ t.dependsOn,
        (∃ u ∈ db'', u.id = d) ∧ d ∉ oldIDs := by
      intro t ht d hd
      rw [hshape] at ht
      rcases List.mem_append.1 ht with h1 | h1
      · obtain ⟨hmap, _⟩ := List.mem_filter.1 h1
        obtain ⟨t0, ht0, ht0eq⟩ := List.mem_map.1 hmap
        have hdeps : t.dependsOn
            = dedupGo [] (t0.dependsOn.map (fun d => if d ∈ oldIDs then nt.id else d)) := by
          rw [← ht0eq]
          rfl
        rw [hdeps] at hd
        have hd1 := dedupGo_subset _ _ d hd
        obtain ⟨d0, hd0, hd0eq⟩ := List.mem_map.1 hd1
        by_cases hdo : d0 ∈ oldIDs
        · rw [if_pos hdo] at hd0eq
          rw [← hd0eq]
          exact ⟨⟨_, hmerged_mem, hmerged_id⟩, hnew⟩
        · rw [if_neg hdo] at hd0eq
          rw [← hd0eq]
          obtain ⟨u, hu, hid⟩ := hok t0 ht0 d0 hd0
          obtain ⟨u', hu', hid'⟩ := hsurvive u hu (by rw [hid]; exact hdo)
          exact ⟨⟨u', hu', hid'.trans hid⟩, hdo⟩
      · rcases List.mem_cons.1 h1 with h2 | h2
        · rw [h2, addDefaults_dependsOn] at hd
          have hd2 : d ∈ nt.dependsOn
              ∨ d ∈ (collectedOldDeps db nt.id oldIDs).filter (fun d => d ∉ nt.dependsOn) := by
            rcases List.mem_append.1 hd with h3 | h3
            · exact Or.inl h3
            · exact Or.inr h3
          have hsrc : d ∉ oldIDs ∧ ∃ u ∈ db, u.id = d := by
            rcases hd2 with h3 | h3
            · exact hntdeps d h3
            · exact hcollected d (List.mem_filter.1 h3).1
          obtain ⟨hd_not, u, hu, hid⟩ := hsrc
          obtain ⟨u', hu', hid'⟩ := hsurvive u hu (by rw [hid]; exact hd_not)
          exact ⟨⟨u', hu', hid'.trans hid⟩, hd_not⟩
        · simp at h2
    constructor
    · intro t ht d hd
      exact (hmain t ht d hd).1
    · intro t ht d hd
      exact (hmain t ht d hd).2

theorem C5_endpoints_witness :
    EndpointsOK [exampleTask "t1" "pending" 1 1 []] ∧
    EndpointsOK [exampleTask "t1" "pending" 1 1 [],
      { exampleTask "t2" "pending" 1 9 ["t1"] with parentID := "" }] := by
  have hc := (C5_endpoints 9 [exampleTask "t1" "pending" 1 1 []]
    (by unfold EndpointsOK; decide)).1 (exampleTask "t2" "pending" 1 0 ["t1"])
    [exampleTask "t1" "pending" 1 1 [], { exampleTask "t2" "pending" 1 9 ["t1"] with parentID := "" }]
    (by decide) (by decide)
  exact ⟨by unfold EndpointsOK; decide, hc⟩

theorem betterTask_rowToTask (s : StoreState) (a u : TaskRow) :
    betterTask (rowToTask s a) (rowToTask s u) = rowToTask s (betterRow a u) := by
  unfold betterTask betterRow
  rw [apply_ite (rowToTask s)]
  have hcond : (decide ((rowToTask s u).priority < (rowToTask s a).priority)
      || ((rowToTask s u).priority == (rowToTask s a).priority
        && decide ((rowToTask s u).createdAt < (rowToTask s a).createdAt)))
      = (decide (u.priority < a.priority)
      || (u.priority == a.priority && decide (u.createdAt < a.createdAt))) := rfl
  rw [hcond]

theorem foldl_betterTask_map (s : StoreState) (l : List TaskRow) (a : TaskRow) :
    (l.map (rowToTask s)).foldl betterTask (rowToTask s a)
      = rowToTask s (l.foldl betterRow a) := by
  induction l generalizing a with
  | nil => rfl
  | cons x xs ih =>
    rw [List.map_cons, List.foldl_cons, List.foldl_cons, betterTask_rowToTask]
    exact ih (betterRow a x)

theorem selectMin_map_rows (s : StoreState) (l : List TaskRow) :
    selectMin (l.map (rowToTask s)) = (selectMinRow l).map (rowToTask s) := by
  cases l with
  | nil => rfl
  | cons x xs =>
    show some ((xs.map (rowToTask s)).foldl betterTask (rowToTask s x))
        = some (rowToTask s (xs.foldl betterRow x))
    rw [foldl_betterTask_map]

theorem rowToTask_status (s : StoreState) (r : TaskRow) :
    (rowToTask s r).status = r.status := rfl

theorem rowToTask_id (s : StoreState) (r : TaskRow) : (rowToTask s r).id = r.id := rfl

theorem rowToTask_attempts_length (s : StoreState) (r : TaskRow) :
    (rowToTask s r).attempts.length = attemptRows s r.id := by
  unfold rowToTask
  exact List.length_replicate _ _

theorem mem_depsOf_iff (s : StoreState) (id d : String) :
    d ∈ depsOf s id ↔ ∃ e ∈ s.deps, e.1 = id ∧ e.2 = d := by
  unfold depsOf
  constructor
  · intro h
    obtain ⟨e, he, heq⟩ := List.mem_map.1 h
    have hm := List.mem_filter.1 he
    refine ⟨e, hm.1, ?_, heq⟩
    have := hm.2
    simpa using this
  · rintro ⟨e, he, h1, h2⟩
    refine List.mem_map.2 ⟨e, List.mem_filter.2 ⟨he, by simpa using h1⟩, h2⟩

theorem isCompletedId_storeToDag (s : StoreState) (d : String) :
    isCompletedId (storeToDag s) d = true
      ↔ ∃ r ∈ s.tasks, r.id = d ∧ r.status = "completed" := by
  unfold isCompletedId storeToDag
  rw [List.any_eq_true]
  constructor
  · rintro ⟨u, hu, hpred⟩
    obtain ⟨r, hr, hreq⟩ := List.mem_map.1 hu
    refine ⟨r, hr, ?_⟩
    rw [← hreq] at hpred
    simp only [Bool.and_eq_true, beq_iff_eq] at hpred
    exact hpred
  · rintro ⟨r, hr, h1, h2⟩
    refine ⟨rowToTask s r, List.mem_map_of_mem _ hr, ?_⟩
    simp only [Bool.and_eq_true, beq_iff_eq]
    exact ⟨h1, h2⟩

theorem deps_component_equiv (s : StoreState)
    (hnodup : (s.tasks.map TaskRow.id).Nodup)
    (hfk : ∀ e ∈ s.deps, ∃ t ∈ s.tasks, t.id = e.2) (r : TaskRow) :
    ((depsOf s r.id).all (fun d => isCompletedId (storeToDag s) d)) = !sqlBlocked s r.id := by
  rw [Bool.eq_iff_iff, List.all_eq_true, Bool.not_eq_true']
  unfold sqlBlocked
  constructor
  · intro hall
    rw [List.any_eq_false]
    intro e he
    simp only [Bool.and_eq_true, beq_iff_eq, not_and, List.any_eq_true, bne_iff_ne]
    intro he1
    rintro ⟨dp, hdp, hdpid, hdpst⟩
    have hmem : e.2 ∈ depsOf s r.id := (mem_depsOf_iff s r.id e.2).2 ⟨e, he, he1, rfl⟩
    obtain ⟨q, hq, hqid, hqst⟩ := (isCompletedId_storeToDag s e.2).1 (hall e.2 hmem)
    have : dp = q := List.inj_on_of_nodup_map hnodup hdp hq (by rw [hdpid, hqid])
    rw [this] at hdpst
    exact hdpst hqst
  · intro hnone d hd
    obtain ⟨e, he, he1, he2⟩ := (mem_depsOf_iff s r.id d).1 hd
    obtain ⟨dp, hdp, hdpid⟩ := hfk e he
    rw [List.any_eq_false] at hnone
    have hline := hnone e he
    simp only [Bool.and_eq_true, beq_iff_eq, not_and, List.any_eq_true, bne_iff_ne] at hline
    refine (isCompletedId_storeToDag s d).2 ⟨dp, hdp, by rw [hdpid, he2], ?_⟩
    by_contra hne
    exact hline he1 ⟨dp, hdp, hdpid, hne⟩

theorem candidate_equiv (s : StoreState)
    (hnodup : (s.tasks.map TaskRow.id).Nodup)
    (hfk : ∀ e ∈ s.deps, ∃ t ∈ s.tasks, t.id = e.2) (r : TaskRow) :
    isCandidate (storeToDag s) (rowToTask s r) = sqlCandidate s r := by
  unfold isCandidate sqlCandidate
  have h1 : ((rowToTask s r).status == StatusPending
      || (rowToTask s r).status == StatusInProgress)
      = (r.status == "pending" || r.status == "in_progress") := rfl
  have h2 : (!(rowToTask s r).hasExhaustedAttempts)
      = decide ((attemptRows s r.id : Int) < r.maxAttempts) := by
    unfold Task.hasExhaustedAttempts
    rw [rowToTask_attempts_length]
    rw [Bool.eq_iff_iff, Bool.not_eq_true', decide_eq_false_iff_not, decide_eq_true_eq]
    exact not_le
  have h3 : ((rowToTask s r).dependsOn.all (fun d => isCompletedId (storeToDag s) d))
      = !sqlBlocked s r.id :=
    deps_component_equiv s hnodup hfk r
  rw [h1, h2, h3]
  rw [Bool.eq_iff_iff]
  simp only [Bool.and_eq_true]
  constructor
  · rintro ⟨⟨hs, hx⟩, hd⟩
    exact ⟨⟨hs, hd⟩, hx⟩
  · rintro ⟨⟨hs, hd⟩, hx⟩
    exact ⟨⟨hs, hx⟩, hd⟩

/-- C7: for every persistent session state with unique task ids and
foreign-key-respecting dependency edges, the SQL-based Store.NextTask
selects the same task (or none) as TaskDB.NextTask run on the in-memory
DAG holding the same tasks, edges, statuses, priorities, creation times,
max_attempts and attempt counts: same candidate condition and same
(priority, created_at) ordering. -/
theorem C7_next_task_refinement (s : StoreState)
    (hnodup : (s.tasks.map TaskRow.id).Nodup)
    (hfk : ∀ e ∈ s.deps, ∃ t ∈ s.tasks, t.id = e.2) :
    nextTask (storeToDag s) = (sqlNextTask s).map (rowToTask s) := by
  unfold nextTask sqlNextTask storeToDag
  rw [List.filter_map]
  have hcong : s.tasks.filter (fun r => isCandidate (s.tasks.map (rowToTask s)) (rowToTask s r))
      = s.tasks.filter (fun r => sqlCandidate s r) := by
    apply List.filter_congr
    intro r _
    exact candidate_equiv s hnodup hfk r
  rw [show ((fun t => isCandidate (s.tasks.map (rowToTask s)) t) ∘ rowToTask s)
      = (fun r => isCandidate (s.tasks.map (rowToTask s)) (rowToTask s r)) from rfl]
  rw [hcong]
  exact selectMin_map_rows s _

theorem C7_next_task_refinement_witness :
    nextTask (storeToDag ⟨[⟨"t1", "completed", 1, 1, 3⟩, ⟨"t2", "pending", 2, 2, 3⟩,
        ⟨"t3", "pending", 1, 3, 3⟩], [("t3", "t2")], ["t1"]⟩)
      = (sqlNextTask ⟨[⟨"t1", "completed", 1, 1, 3⟩, ⟨"t2", "pending", 2, 2, 3⟩,
          ⟨"t3", "pending", 1, 3, 3⟩], [("t3", "t2")], ["t1"]⟩).map
        (rowToTask ⟨[⟨"t1", "completed", 1, 1, 3⟩, ⟨"t2", "pending", 2, 2, 3⟩,
          ⟨"t3", "pending", 1, 3, 3⟩], [("t3", "t2")], ["t1"]⟩) :=
  C7_next_task_refinement _ (by decide) (by decide)

/-- All dependency targets occurring in the DB. -/
def allDeps (db : TaskDB) : List String := db.flatMap Task.dependsOn

theorem succs_subset_allDeps (db : TaskDB) (id : String) :
    ∀ y ∈ succs db id, y ∈ allDeps db := by
  intro y hy
  unfold succs at hy
  cases hf : findTask db id with
  | none =>
    rw [hf] at hy
    simp at hy
  | some t =>
    rw [hf] at hy
    obtain ⟨hmem, _⟩ := findTask_some_mem hf
    exact List.mem_flatMap.2 ⟨t, hmem, hy⟩

theorem edge_head_reaches {db : TaskDB} {x d target : String}
    (hxd : d ∈ succs db x) (hd : Reaches db d target) : Reaches db x target :=
  Relation.ReflTransGen.head hxd hd

theorem dfsList_congr {f g : List String → String → Bool × List String}
    (h : ∀ vis d, f vis d = g vis d) :
    ∀ ds vis, dfsList f vis ds = dfsList g vis ds := by
  intro ds
  induction ds with
  | nil => intro vis; rfl
  | cons d rest ih =>
    intro vis
    rw [dfsList, dfsList, ← h vis d]
    cases hf : f vis d with
    | mk b vis' =>
      cases b with
      | false => exact ih vis'
      | true => rfl

theorem dfsList_mono {f : List String → String → Bool × List String}
    (hf : ∀ vis d, vis ⊆ (f vis d).2) :
    ∀ ds vis, vis ⊆ (dfsList f vis ds).2 := by
  intro ds
  induction ds with
  | nil => intro vis; exact fun x hx => hx
  | cons d rest ih =>
    intro vis
    rw [dfsList]
    cases hfd : f vis d with
    | mk b vis' =>
      have h1 : vis ⊆ vis' := by
        have := hf vis d
        rw [hfd] at this
        exact this
      cases b with
      | false => exact fun x hx => ih vis' (h1 hx)
      | true => exact h1

theorem dfsVisit_mono (db : TaskDB) (target : String) :
    ∀ fuel vis id, vis ⊆ (dfsVisit db target fuel vis id).2 := by
  intro fuel
  induction fuel with
  | zero => intro vis id; exact fun x hx => hx
  | succ fuel ih =>
    intro vis id
    rw [dfsVisit]
    by_cases h1 : id = target
    · rw [if_pos h1]
      exact fun x hx => hx
    · rw [if_neg h1]
      by_cases h2 : id ∈ vis
      · rw [if_pos h2]
        exact fun x hx => hx
      · rw [if_neg h2]
        intro x hx
        exact dfsList_mono (fun vis' d => ih vis' d) (succs db id) (id :: vis)
          (List.mem_cons.2 (Or.inr hx))

theorem dfsList_sound {f : List String → String → Bool × List String} {Q : String → Prop}
    (hf : ∀ vis d, (f vis d).1 = true → Q d) :
    ∀ ds vis, (dfsList f vis ds).1 = true → ∃ d ∈ ds, Q d := by
  intro ds
  induction ds with
  | nil =>
    intro vis h
    simp [dfsList] at h
  | cons d rest ih =>
    intro vis h
    rw [dfsList] at h
    cases hfd : f vis d with
    | mk b vis' =>
      rw [hfd] at h
      cases b with
      | true =>
        refine ⟨d, List.mem_cons_self _ _, hf vis d ?_⟩
        rw [hfd]
      | false =>
        obtain ⟨d', hd', hq⟩ := ih vis' h
        exact ⟨d', List.mem_cons.2 (Or.inr hd'), hq⟩

theorem dfsVisit_sound (db : TaskDB) (target : String) :
    ∀ fuel vis id, (dfsVisit db target fuel vis id).1 = true → Reaches db id target := by
  intro fuel
  induction fuel with
  | zero =>
    intro vis id h
    simp [dfsVisit] at h
  | succ fuel ih =>
    intro vis id h
    rw [dfsVisit] at h
    by_cases h1 : id = target
    · rw [h1]
      exact Relation.ReflTransGen.refl
    · rw [if_neg h1] at h
      by_cases h2 : id ∈ vis
      · rw [if_pos h2] at h
        simp at h
      · rw [if_neg h2] at h
        obtain ⟨d, hd, hq⟩ := dfsList_sound (fun vis' d hd => ih vis' d hd) (succs db id)
          (id :: vis) h
        exact edge_head_reaches hd hq

theorem dfsList_nonreach {f : List String → String → Bool × List String} {Q : String → Prop}
    (hf : ∀ vis d, ¬ Q d →
      (f vis d).1 = false ∧ ∀ x ∈ (f vis d).2, x ∈ vis ∨ ¬ Q x) :
    ∀ ds vis, (∀ d ∈ ds, ¬ Q d) →
      (dfsList f vis ds).1 = false ∧ ∀ x ∈ (dfsList f vis ds).2, x ∈ vis ∨ ¬ Q x := by
  intro ds
  induction ds with
  | nil =>
    intro vis _
    exact ⟨rfl, fun x hx => Or.inl hx⟩
  | cons d rest ih =>
    intro vis hds
    rw [dfsList]
    cases hfd : f vis d with
    | mk b vis' =>
      have hstep := hf vis d (hds d (List.mem_cons_self _ _))
      rw [hfd] at hstep
      obtain ⟨hb, hadd⟩ := hstep
      cases b with
      | true => exact absurd hb (by simp)
      | false =>
        have hrest := ih vis' (fun d' hd' => hds d' (List.mem_cons.2 (Or.inr hd')))
        refine ⟨hrest.1, ?_⟩
        intro x hx
        rcases hrest.2 x hx with h3 | h3
        · exact hadd x h3
        · exact Or.inr h3

theorem dfsVisit_nonreach (db : TaskDB) (target : String) :
    ∀ fuel vis id, ¬ Reaches db id target →
      (dfsVisit db target fuel vis id).1 = false ∧
      ∀ x ∈ (dfsVisit db target fuel vis id).2, x ∈ vis ∨ ¬ Reaches db x target := by
  intro fuel
  induction fuel with
  | zero =>
    intro vis id _
    exact ⟨rfl, fun x hx => Or.inl hx⟩
  | succ fuel ih =>
    intro vis id hnr
    rw [dfsVisit]
    have h1 : id ≠ target := by
      intro h
      exact hnr (h ▸ Relation.ReflTransGen.refl)
    rw [if_neg h1]
    by_cases h2 : id ∈ vis
    · rw [if_pos h2]
      exact ⟨rfl, fun x hx => Or.inl hx⟩
    · rw [if_neg h2]
      have hsucc : ∀ d ∈ succs db id, ¬ Reaches db d target := by
        intro d hd hr
        exact hnr (edge_head_reaches hd hr)
      have hres := dfsList_nonreach (fun vis' d hq => ih vis' d hq) (succs db id)
        (id :: vis) hsucc
      refine ⟨hres.1, ?_⟩
      intro x hx
      rcases hres.2 x hx with h3 | h3
      · rcases List.mem_cons.1 h3 with h4 | h4
        · rw [h4]
          exact Or.inr hnr
        · exact Or.inl h4
      · exact Or.inr h3

theorem dfsVisit_complete (db : TaskDB) (target : String) (hacyc : Acyclic db)
    (U : List String) (hU : ∀ x y, y ∈ succs db x → y ∈ U) :
    ∀ n fuel vis id, (U.toFinset \ vis.toFinset).card ≤ n → n + 1 ≤ fuel →
      id ∈ U → Reaches db id target →
      (∀ x ∈ vis, Reaches db x target → ¬ Reaches db id x) →
      (dfsVisit db target fuel vis id).1 = true := by
  intro n
  induction n with
  | zero =>
    intro fuel vis id hcard _ hidU hreach hinv
    have hidvis : id ∉ vis := fun h => hinv id h hreach Relation.ReflTransGen.refl
    have hmem : id ∈ U.toFinset \ vis.toFinset :=
      Finset.mem_sdiff.2 ⟨List.mem_toFinset.2 hidU, fun h => hidvis (List.mem_toFinset.1 h)⟩
    have hpos := Finset.card_pos.2 ⟨id, hmem⟩
    omega
  | succ n ih =>
    intro fuel vis id hcard hfuel hidU hreach hinv
    have hidvis : id ∉ vis := fun h => hinv id h hreach Relation.ReflTransGen.refl
    obtain ⟨fuel', rfl⟩ : ∃ m, fuel = m + 1 := ⟨fuel - 1, by omega⟩
    rw [dfsVisit]
    by_cases h1 : id = target
    · rw [if_pos h1]
    · rw [if_neg h1, if_neg hidvis]
      have hstep : ∃ d, d ∈ succs db id ∧ Reaches db d target := by
        rcases Relation.ReflTransGen.cases_head hreach with h | ⟨d, hd, hrest⟩
        · exact absurd h h1
        · exact ⟨d, hd, hrest⟩
      have hfuel' : n + 1 ≤ fuel' := by omega
      have hcard0 : (U.toFinset \ (id :: vis).toFinset).card ≤ n := by
        have hmem : id ∈ U.toFinset \ vis.toFinset :=
          Finset.mem_sdiff.2 ⟨List.mem_toFinset.2 hidU,
            fun h => hidvis (List.mem_toFinset.1 h)⟩
        have he : U.toFinset \ (id :: vis).toFinset
            = (U.toFinset \ vis.toFinset).erase id := by
          rw [List.toFinset_cons, Finset.sdiff_insert]
        rw [he, Finset.card_erase_of_mem hmem]
        omega
      have hgoal : ∀ ds W, (∀ d ∈ ds, d ∈ succs db id) →
          (∃ d ∈ ds, Reaches db d target) →
          ((id :: vis) ⊆ W) →
          ((U.toFinset \ W.toFinset).card ≤ n) →
          (∀ x ∈ W, Reaches db x target → x = id ∨ (x ∈ vis ∧ ¬ Reaches db id x)) →
          (dfsList (dfsVisit db target fuel') W ds).1 = true := by
        intro ds
        induction ds with
        | nil =>
          intro W _ hex _ _ _
          simp at hex
        | cons d rest ihds =>
          intro W hds hex hsub hcardW hinvW
          rw [dfsList]
          by_cases hdr : Reaches db d target
          · have hdU : d ∈ U := hU id d (hds d (List.mem_cons_self _ _))
            have hinvd : ∀ x ∈ W, Reaches db x target → ¬ Reaches db d x := by
              intro x hx hxr hdx
              rcases hinvW x hx hxr with h2 | ⟨h2, h3⟩
              · rw [h2] at hdx
                exact hacyc ⟨id, Relation.TransGen.head' (hds d (List.mem_cons_self _ _)) hdx⟩
              · exact h3 (edge_head_reaches (hds d (List.mem_cons_self _ _)) hdx)
            have htrue := ih fuel' W d hcardW hfuel' hdU hdr hinvd
            cases hres : dfsVisit db target fuel' W d with
            | mk b W' =>
              rw [hres] at htrue
              cases b with
              | true => rfl
              | false => exact absurd htrue (by simp)
          · have hB := dfsVisit_nonreach db target fuel' W d hdr
            cases hres : dfsVisit db target fuel' W d with
            | mk b W' =>
              rw [hres] at hB
              cases b with
              | true => exact absurd hB.1 (by simp)
              | false =>
                have hWW' : W ⊆ W' := by
                  have := dfsVisit_mono db target fuel' W d
                  rw [hres] at this
                  exact this
                apply ihds W'
                · intro d' hd'
                  exact hds d' (List.mem_cons.2 (Or.inr hd'))
                · obtain ⟨d0, hd0, hd0r⟩ := hex
                  rcases List.mem_cons.1 hd0 with h2 | h2
                  · rw [h2] at hd0r
                    exact absurd hd0r hdr
                  · exact ⟨d0, h2, hd0r⟩
                · exact fun x hx => hWW' (hsub hx)
                · calc (U.toFinset \ W'.toFinset).card
                      ≤ (U.toFinset \ W.toFinset).card := by
                        apply Finset.card_le_card
                        apply Finset.sdiff_subset_sdiff (le_refl _)
                        intro x hx
                        exact List.mem_toFinset.2 (hWW' (List.mem_toFinset.1 hx))
                    _ ≤ n := hcardW
                · intro x hx hxr
                  rcases hB.2 x hx with h2 | h2
                  · exact hinvW x h2 hxr
                  · exact absurd hxr h2
      apply hgoal (succs db id) (id :: vis) (fun d hd => hd) hstep (fun x hx => hx) hcard0
      intro x hx hxr
      rcases List.mem_cons.1 hx with h2 | h2
      · exact Or.inl h2
      · exact Or.inr ⟨h2, fun hix => hinv x h2 hxr hix⟩

/-- Auxiliary surgery for the DFS argument: a copy of the graph in which
the target keeps its identity but loses its outgoing edges.  The DFS of
`wouldCreateCycle` returns at the target before reading its successor
list, so it cannot distinguish the two graphs. -/
def clearDeps (t : Task) : Task :=
  { t with dependsOn := [] }

theorem clearDeps_id (t : Task) : (clearDeps t).id = t.id := rfl

theorem findTask_updFirst_other {l : TaskDB} {tid id : String} {f : Task → Task}
    (hf : ∀ t, (f t).id = t.id) (hne : id ≠ tid) :
    findTask (updFirst l tid f) id = findTask l id := by
  induction l with
  | nil => rfl
  | cons t ts ih =>
    unfold updFirst
    rcases ht : (t.id == tid) with _ | _
    · rw [if_neg (by simp)]
      unfold findTask
      rw [List.find?_cons, List.find?_cons]
      rcases ht2 : (t.id == id) with _ | _
      · exact ih
      · rfl
    · rw [if_pos rfl]
      unfold findTask
      rw [List.find?_cons, List.find?_cons]
      have htid : t.id = tid := by simpa using ht
      have h1 : ((f t).id == id) = false := by
        rw [hf t, htid]
        exact beq_eq_false_iff_ne.2 (Ne.symm hne)
      have h2 : (t.id == id) = false := by
        rw [htid]
        exact beq_eq_false_iff_ne.2 (Ne.symm hne)
      rw [h1, h2]

theorem succs_updFirst_other {l : TaskDB} {tid x : String} {f : Task → Task}
    (hf : ∀ t, (f t).id = t.id) (hne : x ≠ tid) :
    succs (updFirst l tid f) x = succs l x := by
  unfold succs
  rw [findTask_updFirst_other hf hne]

theorem succs_clear_self (l : TaskDB) (target : String) :
    succs (updFirst l target clearDeps) target = [] := by
  unfold succs
  rw [findTask_updFirst_self clearDeps_id]
  cases findTask l target with
  | none => rfl
  | some t => rfl

theorem edge_clear {db2 : TaskDB} {target x y : String}
    (h : EdgeRel (updFirst db2 target clearDeps) x y) :
    x ≠ target ∧ EdgeRel db2 x y := by
  by_cases hx : x = target
  · exfalso
    unfold EdgeRel at h
    rw [hx, succs_clear_self] at h
    simp at h
  · refine ⟨hx, ?_⟩
    unfold EdgeRel at h ⊢
    rw [succs_updFirst_other clearDeps_id hx] at h
    exact h

theorem reach_clear {db2 : TaskDB} {target : String} {x : String}
    (h : Reaches db2 x target) :
    Reaches (updFirst db2 target clearDeps) x target := by
  unfold Reaches at h ⊢
  induction h using Relation.ReflTransGen.head_induction_on with
  | refl => exact Relation.ReflTransGen.refl
  | head hxz hrest ih =>
    rename_i x' z
    by_cases hxa : x' = target
    · rw [hxa]
    · refine Relation.ReflTransGen.head ?_ ih
      unfold EdgeRel at hxz ⊢
      rw [succs_updFirst_other clearDeps_id hxa]
      exact hxz

theorem dfsVisit_clear_eq (db2 : TaskDB) (target : String) :
    ∀ fuel vis id, dfsVisit db2 target fuel vis id
      = dfsVisit (updFirst db2 target clearDeps) target fuel vis id := by
  intro fuel
  induction fuel with
  | zero => intro vis id; rfl
  | succ fuel ih =>
    intro vis id
    rw [dfsVisit, dfsVisit]
    by_cases h1 : id = target
    · rw [if_pos h1, if_pos h1]
    · rw [if_neg h1, if_neg h1]
      by_cases h2 : id ∈ vis
      · rw [if_pos h2, if_pos h2]
      · rw [if_neg h2, if_neg h2]
        rw [succs_updFirst_other clearDeps_id h1]
        exact dfsList_congr (fun vis' d => ih vis' d) (succs db2 id) (id :: vis)

theorem succs_self_of_find {db : TaskDB} {a : String} {task : Task}
    (hfind : findTask db a = some task) : succs db a = task.dependsOn := by
  unfold succs
  rw [hfind]

theorem succs_append_self {db : TaskDB} {a b : String} {task : Task}
    (hfind : findTask db a = some task) :
    succs (updFirst db a (appendDep b)) a = task.dependsOn ++ [b] := by
  unfold succs
  rw [findTask_updFirst_self (appendDep_id b), hfind]
  rfl

theorem edge_db2_cases {db : TaskDB} {a b : String} {task : Task}
    (hfind : findTask db a = some task) {x y : String}
    (h : EdgeRel (updFirst db a (appendDep b)) x y) :
    EdgeRel db x y ∨ (x = a ∧ y = b) := by
  by_cases hx : x = a
  · unfold EdgeRel at h
    rw [hx, succs_append_self hfind] at h
    rcases List.mem_append.1 h with h1 | h1
    · left
      unfold EdgeRel
      rw [hx, succs_self_of_find hfind]
      exact h1
    · right
      simp at h1
      exact ⟨hx, h1⟩
  · left
    unfold EdgeRel at h ⊢
    rw [succs_updFirst_other (appendDep_id b) hx] at h
    exact h

theorem edge_le_db2 {db : TaskDB} {a b : String} {task : Task}
    (hfind : findTask db a = some task) {x y : String} (h : EdgeRel db x y) :
    EdgeRel (updFirst db a (appendDep b)) x y := by
  by_cases hx : x = a
  · unfold EdgeRel at h ⊢
    rw [hx, succs_append_self hfind]
    rw [hx, succs_self_of_find hfind] at h
    exact List.mem_append_left _ h
  · unfold EdgeRel at h ⊢
    rw [succs_updFirst_other (appendDep_id b) hx]
    exact h

theorem reach_le_db2 {db : TaskDB} {a b : String} {task : Task}
    (hfind : findTask db a = some task) {x y : String}
    (h : Relation.ReflTransGen (EdgeRel db) x y) :
    Relation.ReflTransGen (EdgeRel (updFirst db a (appendDep b))) x y :=
  Relation.ReflTransGen.mono (fun _ _ hxy => edge_le_db2 hfind hxy) h

theorem acyclic_clear_of_acyclic {db : TaskDB} {a b : String} (hacyc : Acyclic db) :
    Acyclic (updFirst (updFirst db a (appendDep b)) a clearDeps) := by
  rintro ⟨x, hcyc⟩
  apply hacyc
  refine ⟨x, ?_⟩
  refine Relation.TransGen.mono ?_ hcyc
  intro u v huv
  obtain ⟨hne, h2⟩ := edge_clear huv
  unfold EdgeRel at h2 ⊢
  rw [succs_updFirst_other (appendDep_id b) hne] at h2
  exact h2

theorem reach_decompose {db : TaskDB} {a b : String} {task : Task}
    (hfind : findTask db a = some task) {x y : String}
    (h : Relation.ReflTransGen (EdgeRel (updFirst db a (appendDep b))) x y) :
    Relation.ReflTransGen (EdgeRel db) x y ∨
      (Relation.ReflTransGen (EdgeRel db) x a ∧
       Relation.ReflTransGen (EdgeRel (updFirst db a (appendDep b))) b y) := by
  induction h using Relation.ReflTransGen.head_induction_on with
  | refl => exact Or.inl Relation.ReflTransGen.refl
  | head hxz hrest ih =>
    rename_i x' z
    rcases edge_db2_cases hfind hxz with h1 | ⟨h1, h2⟩
    · rcases ih with h3 | ⟨h3, h4⟩
      · exact Or.inl (Relation.ReflTransGen.head h1 h3)
      · exact Or.inr ⟨Relation.ReflTransGen.head h1 h3, h4⟩
    · refine Or.inr ⟨?_, ?_⟩
      · rw [h1]
      · exact h2 ▸ hrest

theorem acyclic_db2_of_not_reach {db : TaskDB} {a b : String} {task : Task}
    (hacyc : Acyclic db) (hfind : findTask db a = some task)
    (hnr : ¬ Reaches (updFirst (updFirst db a (appendDep b)) a clearDeps) b a) :
    Acyclic (updFirst db a (appendDep b)) := by
  rintro ⟨x, hcyc⟩
  obtain ⟨z, hxz, hzx⟩ := (Relation.TransGen.head'_iff).1 hcyc
  rcases edge_db2_cases hfind hxz with h1 | ⟨h1, h2⟩
  · rcases reach_decompose hfind hzx with h3 | ⟨h3, h4⟩
    · exact hacyc ⟨x, Relation.TransGen.head' h1 h3⟩
    · apply hnr
      apply reach_clear
      refine Relation.ReflTransGen.trans h4 ?_
      refine Relation.ReflTransGen.head (edge_le_db2 hfind h1) ?_
      exact reach_le_db2 hfind h3
  · apply hnr
    apply reach_clear
    rw [h1] at hzx
    exact h2 ▸ hzx

theorem length_allDeps (db : TaskDB) :
    (allDeps db).length = (db.map (fun t => t.dependsOn.length)).sum := by
  induction db with
  | nil => rfl
  | cons t ts ih =>
    unfold allDeps at ih ⊢
    rw [List.flatMap_cons, List.length_append, List.map_cons, List.sum_cons, ih]

theorem allDeps_clear_le (l : TaskDB) (a : String) :
    (allDeps (updFirst l a clearDeps)).length ≤ (allDeps l).length := by
  induction l with
  | nil => exact Nat.le_refl _
  | cons t ts ih =>
    unfold updFirst
    by_cases h : (t.id == a) = true
    · rw [if_pos h]
      have h1 : allDeps (clearDeps t :: ts) = allDeps ts := rfl
      rw [h1]
      unfold allDeps
      rw [List.flatMap_cons, List.length_append]
      exact Nat.le_add_left _ _
    · rw [if_neg h]
      unfold allDeps
      rw [List.flatMap_cons, List.flatMap_cons, List.length_append, List.length_append]
      exact Nat.add_le_add_left ih _

theorem fuel_bound (db2 : TaskDB) (a : String) :
    (allDeps (updFirst db2 a clearDeps)).length + 2 ≤ dfsFuel db2 := by
  have h1 := allDeps_clear_le db2 a
  have h2 := length_allDeps db2
  unfold dfsFuel
  omega

theorem not_reach_of_wcc_false {db : TaskDB} {a b : String}
    (hacyc : Acyclic db)
    (hwcc : wouldCreateCycle (updFirst db a (appendDep b)) a b = false) :
    ¬ Reaches (updFirst (updFirst db a (appendDep b)) a clearDeps) b a := by
  intro hr
  have hacyc3 : Acyclic (updFirst (updFirst db a (appendDep b)) a clearDeps) :=
    acyclic_clear_of_acyclic hacyc
  have hU : ∀ x y, y ∈ succs (updFirst (updFirst db a (appendDep b)) a clearDeps) x →
      y ∈ (b :: allDeps (updFirst (updFirst db a (appendDep b)) a clearDeps)) := by
    intro x y hy
    exact List.mem_cons_of_mem _ (succs_subset_allDeps _ x y hy)
  have hcard : (((b :: allDeps (updFirst (updFirst db a (appendDep b)) a clearDeps)).toFinset
      \ ([] : List String).toFinset).card)
      ≤ (b :: allDeps (updFirst (updFirst db a (appendDep b)) a clearDeps)).length := by
    have h0 : ([] : List String).toFinset = ∅ := rfl
    rw [h0, Finset.sdiff_empty]
    exact List.toFinset_card_le _
  have hfuel : (b :: allDeps (updFirst (updFirst db a (appendDep b)) a clearDeps)).length + 1
      ≤ dfsFuel (updFirst db a (appendDep b)) := by
    have h1 := fuel_bound (updFirst db a (appendDep b)) a
    rw [List.length_cons]
    omega
  have hinv : ∀ x ∈ ([] : List String),
      Reaches (updFirst (updFirst db a (appendDep b)) a clearDeps) x a →
      ¬ Reaches (updFirst (updFirst db a (appendDep b)) a clearDeps) b x := by
    intro x hx
    exact absurd hx (List.not_mem_nil x)
  have hcomp := dfsVisit_complete (updFirst (updFirst db a (appendDep b)) a clearDeps) a hacyc3
    (b :: allDeps (updFirst (updFirst db a (appendDep b)) a clearDeps)) hU
    (b :: allDeps (updFirst (updFirst db a (appendDep b)) a clearDeps)).length
    (dfsFuel (updFirst db a (appendDep b))) [] b hcard hfuel
    (List.mem_cons_self _ _) hr hinv
  rw [← dfsVisit_clear_eq] at hcomp
  unfold wouldCreateCycle at hwcc
  rw [hcomp] at hwcc
  exact Bool.noConfusion hwcc

theorem dcDeps_stack_path {f : DCState → String → DCState}
    (hf : ∀ st d, (f st d).inStack = st.inStack ∧ (f st d).path = st.path) :
    ∀ ds st, (dcDeps f st ds).inStack = st.inStack ∧ (dcDeps f st ds).path = st.path := by
  intro ds
  induction ds with
  | nil => intro st; exact ⟨rfl, rfl⟩
  | cons d ds ih =>
    intro st
    have hstep : dcDeps f st (d :: ds) =
        dcDeps f (if d ∉ st.visited then f st d
          else if d ∈ st.inStack then { st with cycles := st.cycles ++ [extractCycle d st.path] }
          else st) ds := rfl
    rw [hstep]
    by_cases h1 : d ∉ st.visited
    · rw [if_pos h1]
      obtain ⟨hs, hp⟩ := hf st d
      obtain ⟨hs2, hp2⟩ := ih (f st d)
      exact ⟨hs2.trans hs, hp2.trans hp⟩
    · rw [if_neg h1]
      by_cases h2 : d ∈ st.inStack
      · rw [if_pos h2]
        exact ih _
      · rw [if_neg h2]
        exact ih st

theorem dcVisit_stack_path (db : TaskDB) :
    ∀ fuel st id, (dcVisit db fuel st id).inStack = st.inStack
      ∧ (dcVisit db fuel st id).path = st.path := by
  intro fuel
  induction fuel with
  | zero => intro st id; exact ⟨rfl, rfl⟩
  | succ fuel ih =>
    intro st id
    have he : dcVisit db (Nat.succ fuel) st id =
        (match findTask db id with
         | none => dcFinish id ⟨id :: st.visited, id :: st.inStack, st.path ++ [id], st.cycles⟩
         | some t => dcFinish id (dcDeps (dcVisit db fuel)
             ⟨id :: st.visited, id :: st.inStack, st.path ++ [id], st.cycles⟩ t.dependsOn)) := rfl
    rw [he]
    cases hf : findTask db id with
    | none =>
      unfold dcFinish
      constructor
      · show (id :: st.inStack).erase id = st.inStack
        exact List.erase_cons_head id st.inStack
      · show (st.path ++ [id]).dropLast = st.path
        exact List.dropLast_concat
    | some t =>
      obtain ⟨hs, hp⟩ := dcDeps_stack_path (fun st' d => ih st' d) t.dependsOn
        ⟨id :: st.visited, id :: st.inStack, st.path ++ [id], st.cycles⟩
      unfold dcFinish
      constructor
      · show ((dcDeps (dcVisit db fuel) _ t.dependsOn).inStack).erase id = st.inStack
        rw [hs]
        exact List.erase_cons_head id st.inStack
      · show ((dcDeps (dcVisit db fuel) _ t.dependsOn).path).dropLast = st.path
        rw [hp]
        exact List.dropLast_concat

theorem dcDeps_cycles_aux (db : TaskDB) (hacyc : Acyclic db) (fuel : Nat) (id : String)
    (hrec : ∀ st' d, (∀ x ∈ DCState.inStack st', Reaches db x d) →
      (dcVisit db fuel st' d).cycles = st'.cycles) :
    ∀ ds st', (∀ d ∈ ds, EdgeRel db id d) → (∀ x ∈ DCState.inStack st', Reaches db x id) →
      (dcDeps (dcVisit db fuel) st' ds).cycles = st'.cycles := by
  intro ds
  induction ds with
  | nil => intro st' _ _; rfl
  | cons d ds ih =>
    intro st' hds hstk
    have hed : EdgeRel db id d := hds d (List.mem_cons_self d ds)
    have hrest : ∀ e ∈ ds, EdgeRel db id e := fun e h => hds e (List.mem_cons_of_mem _ h)
    have hstep : dcDeps (dcVisit db fuel) st' (d :: ds) =
        dcDeps (dcVisit db fuel) (if d ∉ st'.visited then dcVisit db fuel st' d
          else if d ∈ st'.inStack then
            { st' with cycles := st'.cycles ++ [extractCycle d st'.path] }
          else st') ds := rfl
    rw [hstep]
    by_cases h1 : d ∉ st'.visited
    · rw [if_pos h1]
      have hreach : ∀ x ∈ DCState.inStack st', Reaches db x d := by
        intro x hx
        exact Relation.ReflTransGen.trans (hstk x hx) (Relation.ReflTransGen.single hed)
      have hcy := hrec st' d hreach
      have hstk2 : ∀ x ∈ DCState.inStack (dcVisit db fuel st' d), Reaches db x id := by
        rw [(dcVisit_stack_path db fuel st' d).1]
        exact hstk
      rw [ih (dcVisit db fuel st' d) hrest hstk2, hcy]
    · rw [if_neg h1]
      by_cases h2 : d ∈ st'.inStack
      · exfalso
        have hrd : Reaches db d id := hstk d h2
        exact hacyc ⟨d, Relation.TransGen.tail' hrd hed⟩
      · rw [if_neg h2]
        exact ih st' hrest hstk

theorem dcVisit_cycles (db : TaskDB) (hacyc : Acyclic db) :
    ∀ fuel st id, (∀ x ∈ DCState.inStack st, Reaches db x id) →
      (dcVisit db fuel st id).cycles = st.cycles := by
  intro fuel
  induction fuel with
  | zero => intro st id _; rfl
  | succ fuel ih =>
    intro st id hstk
    have he : dcVisit db (Nat.succ fuel) st id =
        (match findTask db id with
         | none => dcFinish id ⟨id :: st.visited, id :: st.inStack, st.path ++ [id], st.cycles⟩
         | some t => dcFinish id (dcDeps (dcVisit db fuel)
             ⟨id :: st.visited, id :: st.inStack, st.path ++ [id], st.cycles⟩ t.dependsOn)) := rfl
    rw [he]
    cases hf : findTask db id with
    | none => rfl
    | some t =>
      have hst1 : ∀ x ∈ DCState.inStack
          (⟨id :: st.visited, id :: st.inStack, st.path ++ [id], st.cycles⟩ : DCState),
          Reaches db x id := by
        intro x hx
        rcases List.mem_cons.1 hx with h | h
        · rw [h]
          exact Relation.ReflTransGen.refl
        · exact hstk x h
      have hed : ∀ d ∈ t.dependsOn, EdgeRel db id d := by
        intro d hd
        unfold EdgeRel
        rw [succs_self_of_find hf]
        exact hd
      exact dcDeps_cycles_aux db hacyc fuel id (fun st' d h => ih st' d h) t.dependsOn
        ⟨id :: st.visited, id :: st.inStack, st.path ++ [id], st.cycles⟩ hed hst1

theorem detectCycles_acyclic (db : TaskDB) (hacyc : Acyclic db) : detectCycles db = [] := by
  unfold detectCycles
  suffices h : ∀ (l : List Task) (st : DCState), st.inStack = [] → st.cycles = [] →
      (l.foldl (fun st t =>
        if t.id ∉ st.visited then dcVisit db (dfsFuel db) st t.id else st) st).cycles = []
        ∧ (l.foldl (fun st t =>
        if t.id ∉ st.visited then dcVisit db (dfsFuel db) st t.id else st) st).inStack = [] by
    exact (h db ⟨[], [], [], []⟩ rfl rfl).1
  intro l
  induction l with
  | nil => intro st hs hc; exact ⟨hc, hs⟩
  | cons t ts ih =>
    intro st hs hc
    rw [List.foldl_cons]
    by_cases h1 : t.id ∉ st.visited
    · rw [if_pos h1]
      apply ih
      · rw [(dcVisit_stack_path db (dfsFuel db) st t.id).1]
        exact hs
      · have hstk : ∀ x ∈ DCState.inStack st, Reaches db x t.id := by
          intro x hx
          rw [hs] at hx
          exact absurd hx (List.not_mem_nil x)
        rw [dcVisit_cycles db hacyc (dfsFuel db) st t.id hstk]
        exact hc
    · rw [if_neg h1]
      exact ih st hs hc

theorem updFirst_updFirst {l : TaskDB} {a : String} {f g : Task → Task}
    (hf : ∀ t, (f t).id = t.id) :
    updFirst (updFirst l a f) a g = updFirst l a (fun t => g (f t)) := by
  induction l with
  | nil => rfl
  | cons t ts ih =>
    rcases ht : (t.id == a) with _ | _
    · have h1 : updFirst (t :: ts) a f = t :: updFirst ts a f := by
        show (if (t.id == a) = true then f t :: ts else t :: updFirst ts a f)
          = t :: updFirst ts a f
        rw [if_neg (by simp [ht])]
      have h2 : updFirst (t :: ts) a (fun u => g (f u)) = t :: updFirst ts a (fun u => g (f u)) := by
        show (if (t.id == a) = true then g (f t) :: ts else t :: updFirst ts a (fun u => g (f u)))
          = t :: updFirst ts a (fun u => g (f u))
        rw [if_neg (by simp [ht])]
      have h3 : updFirst (t :: updFirst ts a f) a g = t :: updFirst (updFirst ts a f) a g := by
        show (if (t.id == a) = true then g t :: updFirst ts a f
          else t :: updFirst (updFirst ts a f) a g) = t :: updFirst (updFirst ts a f) a g
        rw [if_neg (by simp [ht])]
      rw [h1, h3, h2, ih]
    · have h1 : updFirst (t :: ts) a f = f t :: ts := by
        show (if (t.id == a) = true then f t :: ts else t :: updFirst ts a f) = f t :: ts
        rw [if_pos ht]
      have h2 : updFirst (f t :: ts) a g = g (f t) :: ts := by
        show (if ((f t).id == a) = true then g (f t) :: ts else f t :: updFirst ts a g)
          = g (f t) :: ts
        rw [if_pos (by rw [hf t]; exact ht)]
      have h3 : updFirst (t :: ts) a (fun u => g (f u)) = g (f t) :: ts := by
        show (if (t.id == a) = true then g (f t) :: ts else t :: updFirst ts a (fun u => g (f u)))
          = g (f t) :: ts
        rw [if_pos ht]
      rw [h1, h2, h3]

theorem updFirst_congr {l : TaskDB} {a : String} {f g : Task → Task}
    (h : ∀ t, f t = g t) : updFirst l a f = updFirst l a g := by
  induction l with
  | nil => rfl
  | cons t ts ih =>
    unfold updFirst
    rcases ht : (t.id == a) with _ | _
    · rw [if_neg (by simp), if_neg (by simp), ih]
    · rw [if_pos rfl, if_pos rfl, h t]

theorem updFirst_id {l : TaskDB} {a : String} : updFirst l a (fun t => t) = l := by
  induction l with
  | nil => rfl
  | cons t ts ih =>
    unfold updFirst
    rcases ht : (t.id == a) with _ | _
    · rw [if_neg (by simp), ih]
    · rw [if_pos rfl]

theorem dropLast_appendDep (b : String) (t : Task) : dropLastDep (appendDep b t) = t := by
  cases t with
  | mk i ti st p c pa dep ma att ca =>
    unfold dropLastDep appendDep
    simp [List.dropLast_concat]

theorem rollback_eq {db : TaskDB} {a b : String} :
    updFirst (updFirst db a (appendDep b)) a dropLastDep = db := by
  rw [updFirst_updFirst (appendDep_id b)]
  have h : updFirst db a (fun t => dropLastDep (appendDep b t)) = updFirst db a (fun t => t) :=
    updFirst_congr (fun t => dropLast_appendDep b t)
  rw [h, updFirst_id]

theorem addDependency_eq_already {db : TaskDB} {ta tb : Task} {a b : String}
    (ha : findTask db a = some ta) (hb : findTask db b = some tb)
    (hmem : b ∈ ta.dependsOn) :
    addDependency db a b = OpOutcome.ok db := by
  unfold addDependency
  simp only [ha, hb]
  rw [if_pos hmem]

theorem addDependency_eq_cycle {db : TaskDB} {ta tb : Task} {a b : String}
    (ha : findTask db a = some ta) (hb : findTask db b = some tb)
    (hmem : b ∉ ta.dependsOn)
    (hwcc : wouldCreateCycle (updFirst db a (appendDep b)) a b = true) :
    addDependency db a b =
      OpOutcome.fail ("adding dependency " ++ a ++ " -> " ++ b ++ " would create a cycle")
        (updFirst (updFirst db a (appendDep b)) a dropLastDep) := by
  unfold addDependency
  simp only [ha, hb]
  rw [if_neg hmem, if_pos hwcc]

theorem addDependency_eq_ok {db : TaskDB} {ta tb : Task} {a b : String}
    (ha : findTask db a = some ta) (hb : findTask db b = some tb)
    (hmem : b ∉ ta.dependsOn)
    (hwcc : wouldCreateCycle (updFirst db a (appendDep b)) a b = false) :
    addDependency db a b = OpOutcome.ok (updFirst db a (appendDep b)) := by
  unfold addDependency
  simp only [ha, hb]
  rw [if_neg hmem, if_neg (by rw [hwcc]; simp)]

theorem acyclic_of_no_deps {db : TaskDB} (h : ∀ t ∈ db, t.dependsOn = []) : Acyclic db := by
  rintro ⟨x, hx⟩
  obtain ⟨z, he, _⟩ := (Relation.TransGen.head'_iff).1 hx
  unfold EdgeRel succs at he
  cases hf : findTask db x with
  | none =>
    simp only [hf] at he
    exact absurd he (List.not_mem_nil z)
  | some t =>
    simp only [hf] at he
    rw [h t (List.mem_of_find?_eq_some hf)] at he
    exact absurd he (List.not_mem_nil z)

/-- C6: on an acyclic TaskDB whose two named tasks exist, AddDependency
behaves as claimed: on success the edge task→depends_on is present and
DetectCycles reports no cycle; on a (cycle) error the returned state is
the original DB, the appended edge having been rolled back; and when the
edge is already present it returns success leaving the DB exactly
unchanged (so the edge is not duplicated). -/
theorem C6_add_dependency (db : TaskDB) (a b : String) (hacyc : Acyclic db)
    (ta tb : Task) (ha : findTask db a = some ta) (hb : findTask db b = some tb) :
    (∀ db', addDependency db a b = OpOutcome.ok db' →
        b ∈ succs db' a ∧ detectCycles db' = []) ∧
    (∀ msg db', addDependency db a b = OpOutcome.fail msg db' → db' = db) ∧
    (b ∈ ta.dependsOn → addDependency db a b = OpOutcome.ok db) := by
  by_cases hmem : b ∈ ta.dependsOn
  · have he := addDependency_eq_already ha hb hmem
    refine ⟨?_, ?_, fun _ => he⟩
    · intro db' h
      rw [he] at h
      cases h
      refine ⟨?_, detectCycles_acyclic db hacyc⟩
      rw [succs_self_of_find ha]
      exact hmem
    · intro msg db' h
      rw [he] at h
      exact OpOutcome.noConfusion h
  · by_cases hwcc : wouldCreateCycle (updFirst db a (appendDep b)) a b = true
    · have he := addDependency_eq_cycle ha hb hmem hwcc
      refine ⟨?_, ?_, fun hc => absurd hc hmem⟩
      · intro db' h
        rw [he] at h
        exact OpOutcome.noConfusion h
      · intro msg db' h
        rw [he] at h
        cases h
        exact rollback_eq
    · have hwf : wouldCreateCycle (updFirst db a (appendDep b)) a b = false := by
        cases hq : wouldCreateCycle (updFirst db a (appendDep b)) a b
        · rfl
        · exact absurd hq hwcc
      have he := addDependency_eq_ok ha hb hmem hwf
      have hacyc2 : Acyclic (updFirst db a (appendDep b)) :=
        acyclic_db2_of_not_reach hacyc ha (not_reach_of_wcc_false hacyc hwf)
      refine ⟨?_, ?_, fun hc => absurd hc hmem⟩
      · intro db' h
        rw [he] at h
        cases h
        refine ⟨?_, detectCycles_acyclic _ hacyc2⟩
        rw [succs_append_self ha]
        exact List.mem_append_right _ (by simp)
      · intro msg db' h
        rw [he] at h
        exact OpOutcome.noConfusion h

theorem C6_add_dependency_witness :
    (∀ db', addDependency [exampleTask "a" "pending" 1 1 [], exampleTask "b" "pending" 1 2 []]
        "a" "b" = OpOutcome.ok db' → "b" ∈ succs db' "a" ∧ detectCycles db' = []) ∧
    (∀ msg db', addDependency [exampleTask "a" "pending" 1 1 [], exampleTask "b" "pending" 1 2 []]
        "a" "b" = OpOutcome.fail msg db' →
        db' = [exampleTask "a" "pending" 1 1 [], exampleTask "b" "pending" 1 2 []]) ∧
    ("b" ∈ (exampleTask "a" "pending" 1 1 []).dependsOn →
      addDependency [exampleTask "a" "pending" 1 1 [], exampleTask "b" "pending" 1 2 []]
        "a" "b" = OpOutcome.ok
          [exampleTask "a" "pending" 1 1 [], exampleTask "b" "pending" 1 2 []]) :=
  C6_add_dependency [exampleTask "a" "pending" 1 1 [], exampleTask "b" "pending" 1 2 []]
    "a" "b" (acyclic_of_no_deps (by decide))
    (exampleTask "a" "pending" 1 1 []) (exampleTask "b" "pending" 1 2 [])
    (by decide) (by decide)

end Agentbox
